import Mathlib

/-!
Shallow embedding of the justfloat-web-oscilloscope core: the streaming
protocol decoder (`useProtocolParser`: JustFloat binary frames and FireWater
text lines), and the rolling sample store with incremental statistics and
decimation (`useDataBuffer`: `RingBuffer`, `IncrementalStats`,
`getSelectionStats`, `getChartData`).

Modelling conventions, used consistently below:
* JavaScript numbers are modelled exactly: `JSNum` distinguishes finite
  rationals from `NaN` and the two infinities.  The source's `isFinite`
  guards become pattern matches on `JSNum`.
* A float32 wire value is identified by its 32-bit little-endian pattern;
  `f32ValueOfWord` maps the pattern to the exact rational value it denotes
  (or to `nan` / an infinity), mirroring `DataView.getFloat32(…, true)`.
* `Math.min(Infinity, v)` / `Math.max(-Infinity, v)` sentinel initialisation
  is modelled by testing `count = 0`: while `count = 0` the min/max fields
  still hold their initial sentinels in the source and are never observable
  (lookups return absent for `count = 0`), so a fresh entry stores `0`s and
  the first finite update overwrites them, which is extensionally identical.
* The frame batcher's choice between an immediate `flushBatch` and a
  scheduled idle flush depends on `performance.now()`; both deliver the
  accumulated frames in order.  The model records frames in `framesBatch`
  and exposes `flushBatch` separately; `emittedAll` (delivered plus pending)
  is the sequence of frames the decoder has emitted.
* `TextDecoder` is modelled on its ASCII/Latin-1 fragment (one byte, one
  character); multi-byte UTF-8 streaming is immaterial to the claims.
-/

namespace Oscillo

/-- JavaScript number: a finite (exact) rational, `NaN`, or an infinity. -/
inductive JSNum where
  | finite (q : ℚ)
  | nan
  | posInf
  | negInf
deriving DecidableEq, Repr

/-- JS `isFinite`. -/
def JSNum.isFinite : JSNum → Bool
  | .finite _ => true
  | _ => false

/-- The rational value of a finite JS number. -/
def JSNum.toQ : JSNum → Option ℚ
  | .finite q => some q
  | _ => none

/-- JS `Math.abs`. -/
def jsAbs : JSNum → JSNum
  | .finite q => .finite |q|
  | .nan => .nan
  | .posInf => .posInf
  | .negInf => .posInf

/-- JS `>` comparison (false whenever either side is `NaN`). -/
def jsGt : JSNum → JSNum → Bool
  | .nan, _ => false
  | _, .nan => false
  | .finite a, .finite b => decide (b < a)
  | .finite _, .posInf => false
  | .finite _, .negInf => true
  | .posInf, .finite _ => true
  | .posInf, .posInf => false
  | .posInf, .negInf => true
  | .negInf, _ => false

/-- JS `*` multiplication, with IEEE special-value propagation. -/
def jsMul : JSNum → JSNum → JSNum
  | .nan, _ => .nan
  | _, .nan => .nan
  | .finite a, .finite b => .finite (a * b)
  | .finite a, .posInf => if a = 0 then .nan else if 0 < a then .posInf else .negInf
  | .finite a, .negInf => if a = 0 then .nan else if 0 < a then .negInf else .posInf
  | .posInf, .finite b => if b = 0 then .nan else if 0 < b then .posInf else .negInf
  | .negInf, .finite b => if b = 0 then .nan else if 0 < b then .negInf else .posInf
  | .posInf, .posInf => .posInf
  | .posInf, .negInf => .negInf
  | .negInf, .posInf => .negInf
  | .negInf, .negInf => .posInf

/-- The exact value denoted by a 32-bit IEEE-754 single-precision pattern
(little-endian word), as read by `DataView.getFloat32(0, true)`. -/
def f32ValueOfWord (w : Nat) : JSNum :=
  let sign : Nat := w / 2 ^ 31 % 2
  let exp : Nat := w / 2 ^ 23 % 2 ^ 8
  let frac : Nat := w % 2 ^ 23
  if exp = 255 then
    if frac = 0 then (if sign = 1 then .negInf else .posInf) else .nan
  else
    let mag : ℚ :=
      if exp = 0 then (frac : ℚ) / 2 ^ 149
      else ((2 ^ 23 + frac : ℚ) * 2 ^ exp) / 2 ^ 150
    .finite (if sign = 1 then -mag else mag)

/-- Assemble a little-endian 32-bit word from four bytes
(`dataView.setUint8` 0..3 then `getFloat32(0, true)`). -/
def leWord (b0 b1 b2 b3 : Nat) : Nat :=
  b0 + 256 * b1 + 65536 * b2 + 16777216 * b3

/-- The four little-endian bytes of a 32-bit word. -/
def wordLEBytes (w : Nat) : List Nat :=
  [w % 256, w / 256 % 256, w / 65536 % 256, w / 16777216 % 256]

/-- Little-endian byte encoding of a list of float32 words (one frame's
payload as it appears on the wire). -/
def encodeWords (ws : List Nat) : List Nat :=
  (ws.map wordLEBytes).join

/-- `parseFloats`: decode a byte list as consecutive 4-byte little-endian
float32 values.  A trailing incomplete group reads missing bytes as `0`
(`DataView.setUint8` coerces `undefined` to `0`); validated callers always
pass a multiple of four bytes. -/
def parseFloats : List Nat → List JSNum
  | b0 :: b1 :: b2 :: b3 :: rest => f32ValueOfWord (leWord b0 b1 b2 b3) :: parseFloats rest
  | [] => []
  | bs => [f32ValueOfWord (leWord (bs.getD 0 0) (bs.getD 1 0) (bs.getD 2 0) (bs.getD 3 0))]

/-- `SYNC_BYTES`: the JustFloat frame marker `0x00 0x00 0x80 0x7F`. -/
def SYNC_BYTES : List Nat := [0x00, 0x00, 0x80, 0x7F]

/-- `checkSyncBytes`: do the last four bytes of the buffer equal the marker? -/
def checkSyncBytes (buf : List Nat) : Bool :=
  if buf.length < 4 then false
  else
    let start := buf.length - 4
    buf.getD start 0 == 0x00 && buf.getD (start + 1) 0 == 0x00 &&
    buf.getD (start + 2) 0 == 0x80 && buf.getD (start + 3) 0 == 0x7F

/-- Clamp one JS `Array.prototype.slice` index (negative counts from the
end). -/
def jsSliceIdx (len : Nat) (i : Int) : Nat :=
  (if i < 0 then max ((len : Int) + i) 0 else min i (len : Int)).toNat

/-- JS `Array.prototype.slice(s, e)`. -/
def jsSlice (l : List α) (s e : Int) : List α :=
  (l.take (jsSliceIdx l.length e)).drop (jsSliceIdx l.length s)

/-- JS `Array.prototype.slice(s)` (slice to the end). -/
def jsSliceFrom (l : List α) (s : Int) : List α :=
  jsSlice l s (l.length : Int)

/-- `isValidPayload`: candidate payload length must be a positive multiple
of four and at most 256 bytes (64 channels). -/
def isValidPayload (payloadStart payloadEnd : Int) : Bool :=
  let payloadLength := payloadEnd - payloadStart
  if payloadLength % 4 != 0 then false
  else if payloadLength == 0 then false
  else if payloadLength < 4 then false
  else if payloadLength > 256 then false
  else true

/-- The JustFloat scanner's two states. -/
inductive JustFloatState where
  | lookingForFirstSync
  | lookingForSecondSync
deriving DecidableEq, Repr

/-- The two wire protocols. -/
inductive ProtocolType where
  | justfloat
  | firewater
deriving DecidableEq, Repr

/-- The full mutable state closed over by `useProtocolParser`. -/
structure ParserState where
  channelCount : Nat
  frameCount : Nat
  currentProtocol : ProtocolType
  justfloatBuffer : List Nat
  justfloatState : JustFloatState
  firstSyncIndex : Int
  expectedChannelCount : Nat
  firewaterBuffer : List Char
  framesBatch : List (List JSNum)
  idleFlushTimer : Bool
  delivered : List (List JSNum)
deriving DecidableEq, Repr

/-- The parser's initial state. -/
def initParserState : ParserState where
  channelCount := 0
  frameCount := 0
  currentProtocol := .justfloat
  justfloatBuffer := []
  justfloatState := .lookingForFirstSync
  firstSyncIndex := -1
  expectedChannelCount := 0
  firewaterBuffer := []
  framesBatch := []
  idleFlushTimer := false
  delivered := []

/-- `flushBatch`: cancel the idle timer and deliver the pending batch (a
no-op delivery when the batch is empty). -/
def flushBatch (σ : ParserState) : ParserState :=
  { σ with idleFlushTimer := false, framesBatch := [],
           delivered := σ.delivered ++ σ.framesBatch }

/-- `scheduleIdleFlush`: (re)arm the idle-flush timer. -/
def scheduleIdleFlush (σ : ParserState) : ParserState :=
  { σ with idleFlushTimer := true }

/-- The channel-count update performed by `addFrameToBatch`: raise to the
frame's length when larger, initialise when still `0`, else keep. -/
def ccUpdate (cc n : Nat) : Nat :=
  if n > cc then n else if cc = 0 then n else cc

/-- `addFrameToBatch`: append the frame to the pending batch, bump the frame
counter, update the visible channel count.  The subsequent wall-clock test
(`performance.now`) either flushes now or schedules the idle flush; the model
takes the scheduling branch and treats flush timing via `flushBatch` and
`emittedAll` (see the header). -/
def addFrameToBatch (σ : ParserState) (values : List JSNum) : ParserState :=
  scheduleIdleFlush
    { σ with framesBatch := σ.framesBatch ++ [values],
             frameCount := σ.frameCount + 1,
             channelCount := ccUpdate σ.channelCount values.length }

/-- One byte of `processJustFloat`'s scanning loop. -/
def stepJustFloat (σ : ParserState) (b : Nat) : ParserState :=
  let σ := { σ with justfloatBuffer := σ.justfloatBuffer ++ [b] }
  let σ :=
    if σ.justfloatBuffer.length > 100000 then
      { σ with justfloatBuffer := jsSliceFrom σ.justfloatBuffer (-50000),
               justfloatState := .lookingForFirstSync, firstSyncIndex := -1 }
    else σ
  match σ.justfloatState with
  | .lookingForFirstSync =>
    if checkSyncBytes σ.justfloatBuffer then
      { σ with firstSyncIndex := (σ.justfloatBuffer.length : Int) - 4,
               justfloatState := .lookingForSecondSync }
    else σ
  | .lookingForSecondSync =>
    if checkSyncBytes σ.justfloatBuffer then
      let secondSyncIndex : Int := (σ.justfloatBuffer.length : Int) - 4
      let payloadStart : Int := σ.firstSyncIndex + 4
      let payloadEnd : Int := secondSyncIndex
      if isValidPayload payloadStart payloadEnd then
        let payload := jsSlice σ.justfloatBuffer payloadStart payloadEnd
        let values := parseFloats payload
        if σ.expectedChannelCount > 0 ∧ values.length ≠ σ.expectedChannelCount then
          { σ with justfloatState := .lookingForFirstSync, firstSyncIndex := -1 }
        else
          let σ :=
            if values.length > 0 then
              addFrameToBatch
                { σ with expectedChannelCount :=
                    if σ.expectedChannelCount = 0 then values.length
                    else σ.expectedChannelCount }
                values
            else σ
          { σ with justfloatBuffer := jsSliceFrom σ.justfloatBuffer secondSyncIndex,
                   firstSyncIndex := 0 }
      else σ
    else σ

/-- `processJustFloat`: feed a chunk byte by byte through the scanner. -/
def processJustFloat (σ : ParserState) (data : List Nat) : ParserState :=
  data.foldl stepJustFloat σ

/-- `findLineEnd`: index of the line terminator, merging `\r\n` / `\n\r`
pairs into one terminator (the returned index is the pair's second char). -/
def findLineEnd : List Char → Option Nat
  | [] => none
  | c :: rest =>
    if c = '\n' ∨ c = '\r' then
      match rest with
      | c2 :: _ => if (c2 = '\n' ∨ c2 = '\r') ∧ c2 ≠ c then some 1 else some 0
      | [] => some 0
    else (findLineEnd rest).map (· + 1)

/-- JS `String.prototype.trim`. -/
def jsTrim (s : List Char) : List Char :=
  ((s.dropWhile Char.isWhitespace).reverse.dropWhile Char.isWhitespace).reverse

/-- JS `String.prototype.split(',')`. -/
def splitOnComma : List Char → List (List Char)
  | [] => [[]]
  | c :: rest =>
    let r := splitOnComma rest
    if c = ',' then [] :: r
    else (c :: r.headD []) :: r.tail

/-- `line.toLowerCase().startsWith('image')`. -/
def isImageLine (line : List Char) : Bool :=
  (line.map Char.toLower).take 5 == [Char.ofNat 105, Char.ofNat 109, Char.ofNat 97,
    Char.ofNat 103, Char.ofNat 101]

/-- The data part of a line: everything after the first colon when a colon
is present (`line.indexOf(':')`), else the whole line. -/
def dataPartOfLine (line : List Char) : List Char :=
  match line.findIdx? (· = ':') with
  | some i => line.drop (i + 1)
  | none => line

/-- Digit string to natural number. -/
def digitsToNat (ds : List Char) : Nat :=
  ds.foldl (fun a c => 10 * a + (c.toNat - 48)) 0

/-- JS `parseFloat` restricted to its finite outcomes: parse the longest
numeric prefix (`[+-]? digits [. digits]? ([eE][+-]?digits)?`); return
`none` for `NaN` (no digits) and for the non-finite `Infinity` literal. -/
def jsParseFloat (s : List Char) : Option ℚ :=
  let sgnRest : ℚ × List Char :=
    match s with
    | '+' :: r => (1, r)
    | '-' :: r => (-1, r)
    | _ => (1, s)
  let sgn := sgnRest.1
  let s1 := sgnRest.2
  if s1.take 8 = [Char.ofNat 73, Char.ofNat 110, Char.ofNat 102, Char.ofNat 105,
      Char.ofNat 110, Char.ofNat 105, Char.ofNat 116, Char.ofNat 121] then none
  else
    let intDigits := s1.takeWhile Char.isDigit
    let r1 := s1.dropWhile Char.isDigit
    let fracRest : List Char × List Char :=
      match r1 with
      | '.' :: r => (r.takeWhile Char.isDigit, r.dropWhile Char.isDigit)
      | _ => ([], r1)
    let fracDigits := fracRest.1
    let r2 := fracRest.2
    if intDigits = [] ∧ fracDigits = [] then none
    else
      let mantissa : ℚ :=
        (digitsToNat intDigits : ℚ) + (digitsToNat fracDigits : ℚ) / 10 ^ fracDigits.length
      let expVal : ℤ :=
        match r2 with
        | 'e' :: r | 'E' :: r =>
          let esRest : ℤ × List Char :=
            match r with
            | '+' :: t => (1, t)
            | '-' :: t => (-1, t)
            | _ => (1, r)
          let expDigits := esRest.2.takeWhile Char.isDigit
          if expDigits = [] then 0 else esRest.1 * digitsToNat expDigits
        | _ => 0
      some (sgn * mantissa * (10 : ℚ) ^ expVal)

/-- The comma-piece loop of `parseFireWaterLine`: skip empty-after-trim
pieces, fail the whole line on the first piece that does not parse finite. -/
def parsePieces : List (List Char) → Option (List ℚ)
  | [] => some []
  | p :: ps =>
    let t := jsTrim p
    if t = [] then parsePieces ps
    else
      match jsParseFloat t with
      | some v => (parsePieces ps).map (v :: ·)
      | none => none

/-- `parseFireWaterLine`: reject `image…` lines, drop an optional
`tag:` prefix, split on commas and parse; `null` when nothing parsed. -/
def parseFireWaterLine (line : List Char) : Option (List ℚ) :=
  if isImageLine line then none
  else
    match parsePieces (splitOnComma (dataPartOfLine line)) with
    | none => none
    | some vs => if vs.length > 0 then some vs else none

/-- `findLineEnd` only succeeds on a nonempty buffer. -/
theorem findLineEnd_isSome_pos {buf : List Char} {i : Nat}
    (h : findLineEnd buf = some i) : 0 < buf.length := by
  cases buf with
  | nil => simp [findLineEnd] at h
  | cons c rest => simp

/-- The line-consuming loop of `processFireWater` (the body of
`while ((lineEnd = findLineEnd(firewaterBuffer)) !== -1)`); the leftover
(line-free) text is stored back into `firewaterBuffer`. -/
def processFireWaterLines (σ : ParserState) (buf : List Char) : ParserState :=
  match h : findLineEnd buf with
  | none => { σ with firewaterBuffer := buf }
  | some lineEnd =>
    let line := jsTrim (buf.take lineEnd)
    let rest := buf.drop (lineEnd + 1)
    let σ :=
      if line = [] then σ
      else
        match parseFireWaterLine line with
        | some values =>
          if values.length > 0 then addFrameToBatch σ (values.map JSNum.finite) else σ
        | none => σ
    processFireWaterLines σ rest
termination_by buf.length
decreasing_by
  have := findLineEnd_isSome_pos h
  simp only [List.length_drop]
  omega

/-- `TextDecoder.decode` on its one-byte-per-character fragment. -/
def textDecodeByte (b : Nat) : Char := Char.ofNat b

/-- `processFireWater`: append the decoded chunk, truncate an oversized
buffer, then consume complete lines. -/
def processFireWater (σ : ParserState) (data : List Nat) : ParserState :=
  let buf := σ.firewaterBuffer ++ data.map textDecodeByte
  let buf := if buf.length > 100000 then jsSliceFrom buf (-50000) else buf
  processFireWaterLines σ buf

/-- `processData`: dispatch a chunk to the active protocol's decoder. -/
def processData (σ : ParserState) (data : List Nat) : ParserState :=
  if σ.currentProtocol = .justfloat then processJustFloat σ data
  else processFireWater σ data

/-- `reset`: cancel the idle timer, discard the pending batch and all
parsing state (scratch buffers, marker-search state, learned expected
channel count); `channelCount` and `frameCount` are preserved. -/
def reset (σ : ParserState) : ParserState :=
  { σ with idleFlushTimer := false,
           framesBatch := [],
           justfloatBuffer := [],
           justfloatState := .lookingForFirstSync,
           firstSyncIndex := -1,
           expectedChannelCount := 0,
           firewaterBuffer := [] }

/-- `fullReset`: `reset` plus clearing the visible channel count and the
frame counter. -/
def fullReset (σ : ParserState) : ParserState :=
  { reset σ with channelCount := 0, frameCount := 0 }

/-- `setChannelCount`. -/
def setChannelCount (σ : ParserState) (count : Nat) : ParserState :=
  { σ with channelCount := count }

/-- `setProtocol`: switch format and `reset` (no-op when unchanged). -/
def setProtocol (σ : ParserState) (p : ProtocolType) : ParserState :=
  if σ.currentProtocol ≠ p then reset { σ with currentProtocol := p } else σ

/-- All frames the decoder has emitted, delivered plus still pending. -/
def emittedAll (σ : ParserState) : List (List JSNum) :=
  σ.delivered ++ σ.framesBatch

/-- Feed a sequence of chunks through `processData`. -/
def runChunks (σ : ParserState) (chunks : List (List Nat)) : ParserState :=
  chunks.foldl processData σ

/-- The wire stream of a payload sequence: each frame is bracketed by the
marker, and the end marker of frame k is the start marker of frame k+1. -/
def encodeStream (ps : List (List Nat)) : List Nat :=
  SYNC_BYTES ++ (ps.map (· ++ SYNC_BYTES)).join

/-- Marker occurrence at offset `k`. -/
def occursAt (s : List Nat) (k : Nat) : Prop :=
  (s.drop k).take 4 = SYNC_BYTES

instance (s : List Nat) (k : Nat) : Decidable (occursAt s k) := by
  unfold occursAt; infer_instance

/-- Decidable marker-freeness of a payload. -/
def markerFree (p : List Nat) : Bool :=
  (List.range p.length).all fun k => !(decide (occursAt p k))

/-- A well-formed C-channel payload: 4·C bytes, marker-free, byte-valued. -/
def wfPayload (C : Nat) (p : List Nat) : Prop :=
  p.length = 4 * C ∧ markerFree p = true ∧ ∀ b ∈ p, b < 256

/-! ## The rolling sample store (`useDataBuffer`) -/

/-- A decoded sample frame: capture timestamp plus channel values. -/
structure DataFrame where
  timestamp : ℚ
  values : List JSNum
deriving DecidableEq, Repr

instance : Inhabited DataFrame := ⟨⟨0, []⟩⟩

/-- The circular store.  `buffer` maps a slot index to its contents
(`none` models a never-written `Array` slot). -/
structure RingBuffer where
  buffer : Nat → Option DataFrame
  head : Nat
  tail : Nat
  size : Nat
  capacity : Nat

/-- `new RingBuffer(capacity)`. -/
def RingBuffer.mk0 (capacity : Nat) : RingBuffer where
  buffer := fun _ => none
  head := 0
  tail := 0
  size := 0
  capacity := capacity

/-- `RingBuffer.push`: write at `tail`, advance `tail`; grow while below
capacity, else advance `head` (overwriting the oldest slot). -/
def RingBuffer.push (rb : RingBuffer) (frame : DataFrame) : RingBuffer :=
  let buffer := fun j => if j = rb.tail then some frame else rb.buffer j
  let tail := (rb.tail + 1) % rb.capacity
  if rb.size < rb.capacity then
    { rb with buffer := buffer, tail := tail, size := rb.size + 1 }
  else
    { rb with buffer := buffer, tail := tail, head := (rb.head + 1) % rb.capacity }

/-- `RingBuffer.pushBatch` (and repeated `push`). -/
def RingBuffer.pushList (rb : RingBuffer) (frames : List DataFrame) : RingBuffer :=
  frames.foldl RingBuffer.push rb

/-- `RingBuffer.get`: logical index 0 is the oldest retained frame;
out-of-range indices (negative or `≥ size`) are absent. -/
def RingBuffer.get (rb : RingBuffer) (index : Int) : Option DataFrame :=
  if index < 0 ∨ (rb.size : Int) ≤ index then none
  else rb.buffer ((rb.head + index.toNat) % rb.capacity)

/-- The inclusive integer range `[a, b]` as a list. -/
def intRangeIncl (a b : Int) : List Int :=
  (List.range (b + 1 - a).toNat).map (fun k : Nat => a + (k : Int))

/-- `RingBuffer.getRange`: collect present frames for `start ≤ i ≤
min(end, size-1)`. -/
def RingBuffer.getRange (rb : RingBuffer) (start stop : Int) : List DataFrame :=
  let actualEnd := min stop ((rb.size : Int) - 1)
  (intRangeIncl start actualEnd).filterMap rb.get

/-- `RingBuffer.clear`. -/
def RingBuffer.clear (rb : RingBuffer) : RingBuffer :=
  { rb with head := 0, tail := 0, size := 0 }

/-- One channel's running-statistics record (see the header note on the
`±Infinity` sentinels: while `count = 0` the min/max fields are unobservable
and a fresh entry stores `0`s). -/
structure StatEntry where
  min : ℚ
  max : ℚ
  sum : ℚ
  count : Nat
  current : ℚ
deriving DecidableEq, Repr

/-- The entry created on first touch of a channel. -/
def freshEntry : StatEntry := ⟨0, 0, 0, 0, 0⟩

/-- `IncrementalStats`' channel map. -/
def IncStats : Type := Nat → Option StatEntry

/-- The empty map. -/
def IncStats.empty : IncStats := fun _ => none

/-- `IncrementalStats.update`: create the entry if missing, then fold the
value in only when it is finite. -/
def IncStats.update (st : IncStats) (channelIndex : Nat) (value : JSNum) : IncStats :=
  let e := (st channelIndex).getD freshEntry
  let eNew :=
    match value with
    | .finite q =>
      { min := if e.count = 0 then q else Min.min e.min q
        max := if e.count = 0 then q else Max.max e.max q
        sum := e.sum + q
        count := e.count + 1
        current := q : StatEntry }
    | _ => e
  fun c => if c = channelIndex then some eNew else st c

/-- The public per-channel statistics shape. -/
structure ChannelStats where
  min : ℚ
  max : ℚ
  avg : ℚ
  current : ℚ
deriving DecidableEq, Repr

/-- `IncrementalStats.get` (hence `getChannelStats`): absent until a finite
sample has been recorded; the average is derived as `sum / count`. -/
def IncStats.get (st : IncStats) (channelIndex : Nat) : Option ChannelStats :=
  match st channelIndex with
  | none => none
  | some e => if e.count = 0 then none else some ⟨e.min, e.max, e.sum / e.count, e.current⟩

/-- `IncrementalStats.clear`. -/
def IncStats.clear (_ : IncStats) : IncStats := fun _ => none

/-- The per-value loop of `addFrame`: `update(i, values[i])` for each index. -/
def updFrameGo (st : IncStats) (i : Nat) : List JSNum → IncStats
  | [] => st
  | v :: vs => updFrameGo (st.update i v) (i + 1) vs

/-- Statistics update for one pushed frame. -/
def IncStats.updateFrame (st : IncStats) (values : List JSNum) : IncStats :=
  updFrameGo st 0 values

/-- `addFrame` restricted to its store effects: push the timestamped frame
and update the incremental statistics (sample-rate bookkeeping and Vue
reactivity are UI plumbing outside every claim). -/
def addFrame (rb : RingBuffer) (st : IncStats) (now : ℚ) (values : List JSNum) :
    RingBuffer × IncStats :=
  (rb.push ⟨now, values⟩, st.updateFrame values)

/-- A sequence of `addFrame` calls (timestamp paired with each frame). -/
def addFrameList (rb : RingBuffer) (st : IncStats) (pushes : List (ℚ × List JSNum)) :
    RingBuffer × IncStats :=
  pushes.foldl (fun acc p => addFrame acc.1 acc.2 p.1 p.2) (rb, st)

/-- One channel's row of a selection-statistics result. -/
structure SelChannel where
  id : Nat
  min : ℚ
  max : ℚ
  avg : ℚ
deriving DecidableEq, Repr

/-- The selection-statistics result shape. -/
structure SelStats where
  startIndex : Int
  endIndex : Int
  pointCount : Nat
  duration : ℚ
  frequency : ℚ
  channels : List SelChannel
deriving DecidableEq, Repr

/-- The per-channel accumulation loop of `getSelectionStats`: over the
range's frames, fold min/max/sum/count of the finite values at channel `ch`
(values at out-of-range channel indices and non-finite values are skipped);
the `±Infinity` min/max sentinels are modelled by the `count = 0` test. -/
def selChannelFold (frames : List DataFrame) (ch : Nat) : ℚ × ℚ × ℚ × Nat :=
  frames.foldl
    (fun acc frame =>
      match frame.values.get? ch with
      | some (.finite q) =>
        (if acc.2.2.2 = 0 then q else Min.min acc.1 q,
         if acc.2.2.2 = 0 then q else Max.max acc.2.1 q,
         acc.2.2.1 + q, acc.2.2.2 + 1)
      | _ => acc)
    (0, 0, 0, 0)

/-- `getSelectionStats`: absent below two points in range; otherwise point
count, first-to-last duration, `frequency = pointCount / durationSeconds`,
and per-channel raw min/max/avg (0s for a channel with no finite value). -/
def getSelectionStats (rb : RingBuffer) (startIndex endIndex : Int)
    (channelCount : Nat) : Option SelStats :=
  let frames := rb.getRange startIndex endIndex
  if frames.length < 2 then none
  else
    let duration := (frames.getLastD default).timestamp - (frames.headD default).timestamp
    let frequency := (frames.length : ℚ) / (duration / 1000)
    let channels := (List.range channelCount).map (fun ch =>
      let acc := selChannelFold frames ch
      { id := ch
        min := if acc.2.2.2 > 0 then acc.1 else 0
        max := if acc.2.2.2 > 0 then acc.2.1 else 0
        avg := if acc.2.2.2 > 0 then acc.2.2.1 / acc.2.2.2 else 0 : SelChannel })
    some { startIndex := startIndex, endIndex := endIndex,
           pointCount := frames.length, duration := duration,
           frequency := frequency, channels := channels }

/-- `getChartData`'s target-point step function. -/
def targetPointsFor (totalSize : Nat) : Nat :=
  if totalSize > 500000 then 5000
  else if totalSize > 200000 then 10000
  else if totalSize > 100000 then 20000
  else if totalSize > 50000 then 30000
  else totalSize

/-- The peak-search inner loop of `getChartData`'s min-max branch: in the
window `[i, endIdx)`, the index of the sample with the largest absolute
value over the first `channelCount` channels (missing channels read as 0,
`NaN` comparisons are false). -/
def windowPeakIdx (rb : RingBuffer) (channelCount : Nat) (i endIdx : Nat) : Nat :=
  ((List.range' i (endIdx - i)).foldl
    (fun (acc : Nat × JSNum) j =>
      match rb.get (Int.ofNat j) with
      | none => acc
      | some frame =>
        (List.range channelCount).foldl
          (fun acc2 ch =>
            let diff := jsAbs (frame.values.getD ch (.finite 0))
            if jsGt diff acc2.2 then (j, diff) else acc2)
          acc)
    (i, .finite 0)).1

/-- The output-collection loop shared by `getChartData`'s branches: walk the
candidate indices, look up `pick i`, skip missing frames, stop once
`outputSize` slots are filled. -/
def chartCollect (rb : RingBuffer) (idxs : List Nat) (slots : Nat)
    (pick : Nat → Nat) : List (Nat × DataFrame) :=
  match idxs, slots with
  | [], _ => []
  | _ :: _, 0 => []
  | i :: rest, s + 1 =>
    let k := pick i
    match rb.get (Int.ofNat k) with
    | none => chartCollect rb rest (s + 1) pick
    | some f => (k, f) :: chartCollect rb rest s pick

/-- `getChartData`: `null` on an empty store; otherwise the x-index array
plus one scaled series per channel.  Decimation strides by
`ceil(total/target)`; above 100 000 points it keeps each window's peak
sample and truncates a short output, below it takes fixed-stride samples
into the preallocated (zero-filled) arrays.  Every emitted value is
`value * coefficient` with the coefficient defaulting to 1. -/
def getChartData (rb : RingBuffer) (channelCount : Nat) (coefficients : List JSNum) :
    Option (List ℚ × List (List JSNum)) :=
  let totalSize := rb.size
  if totalSize = 0 then none
  else
    let targetPoints := targetPointsFor totalSize
    let needDownsample := totalSize > targetPoints
    let step := if needDownsample then (totalSize + targetPoints - 1) / targetPoints else 1
    let outputSize := if needDownsample then (totalSize + step - 1) / step else totalSize
    let idxs := List.range' 0 ((totalSize + step - 1) / step) step
    let entries :=
      if needDownsample ∧ totalSize > 100000 then
        chartCollect rb idxs outputSize
          (fun i => windowPeakIdx rb channelCount i (min (i + step) totalSize))
      else
        chartCollect rb idxs outputSize (fun i => i)
    let xs := entries.map (fun e => (e.1 : ℚ))
    let series := (List.range channelCount).map (fun ch =>
      entries.map (fun e =>
        jsMul (e.2.values.getD ch (.finite 0)) (coefficients.getD ch (.finite 1))))
    if needDownsample ∧ totalSize > 100000 then
      some (xs, series)
    else
      some (xs ++ List.replicate (outputSize - entries.length) 0,
            series.map (fun s => s ++ List.replicate (outputSize - entries.length) (.finite 0)))

/-- The frames retained after pushing `fs` into a fresh store of capacity
`N`: the most recent `min |fs| N` of them, in order. -/
def storedFrames (N : Nat) (fs : List DataFrame) : List DataFrame :=
  fs.drop (fs.length - min fs.length N)

/-- The number of stored indices inside the closed selection range
`[start, stop]` for a store holding `size` points: the integers in
`[max start 0, min stop (size - 1)]`. -/
def rangePointCount (size : Nat) (start stop : Int) : Nat :=
  (min stop ((size : Int) - 1) + 1 - max start 0).toNat

/-- The stored frames selected by the closed range `[start, stop]` after a
push sequence: the retained frames at the clamped in-range indices. -/
def rangeSlice (N : Nat) (fs : List DataFrame) (start stop : Int) : List DataFrame :=
  (List.range' (max start 0).toNat (rangePointCount (min fs.length N) start stop)).map
    (fun k => (storedFrames N fs).getD k default)

/-- Minimum of a value list with a default for the empty list. -/
def listMinD (l : List ℚ) (d : ℚ) : ℚ :=
  match l with
  | [] => d
  | q :: qs => qs.foldl Min.min q

/-- Maximum of a value list with a default for the empty list. -/
def listMaxD (l : List ℚ) (d : ℚ) : ℚ :=
  match l with
  | [] => d
  | q :: qs => qs.foldl Max.max q

/-- Modelled from the spec: the per-channel selection minimum demanded by
"per-channel min/max/avg with the per-channel coefficient applied before
the min/max comparison" — the minimum over the selection's finite channel
values after scaling each by the channel coefficient. -/
def selChannelMinSpec (frames : List DataFrame) (ch : Nat) (coef : ℚ) : Option ℚ :=
  match (frames.filterMap (fun f => (f.values.get? ch).bind JSNum.toQ)).map (coef * ·) with
  | [] => none
  | q :: qs => some (qs.foldl Min.min q)

/-- One `IncrementalStats.update` step on an existing entry (the body of
`update` after the entry lookup): fold a finite value in, ignore others. -/
def upd1 (e : StatEntry) : JSNum → StatEntry
  | .finite q =>
    { min := if e.count = 0 then q else Min.min e.min q
      max := if e.count = 0 then q else Max.max e.max q
      sum := e.sum + q
      count := e.count + 1
      current := q }
  | _ => e

/-- The statistics state after updating with a sequence of frames. -/
def statsAfterFrames (frames : List (List JSNum)) : IncStats :=
  frames.foldl IncStats.updateFrame IncStats.empty

/-- The values recorded on channel `ch` by a push sequence (frames shorter
than `ch + 1` record nothing there). -/
def chanTrace (frames : List (List JSNum)) (ch : Nat) : List JSNum :=
  frames.filterMap (fun vs => vs.get? ch)

/-- The finite rational values among a value trace. -/
def finiteVals (vs : List JSNum) : List ℚ :=
  vs.filterMap JSNum.toQ

/-- The finite values of channel `ch` over a frame list (selection scope). -/
def selVals (frames : List DataFrame) (ch : Nat) : List ℚ :=
  frames.filterMap (fun f => (f.values.get? ch).bind JSNum.toQ)

/-- Two parser states that agree on every field read by the byte/line
processing itself (everything except the UI counters, the idle timer and
the already-delivered frames). -/
def ParseAgree (σ σ' : ParserState) : Prop :=
  σ.currentProtocol = σ'.currentProtocol ∧
  σ.justfloatBuffer = σ'.justfloatBuffer ∧
  σ.justfloatState = σ'.justfloatState ∧
  σ.firstSyncIndex = σ'.firstSyncIndex ∧
  σ.expectedChannelCount = σ'.expectedChannelCount ∧
  σ.firewaterBuffer = σ'.firewaterBuffer ∧
  σ.framesBatch = σ'.framesBatch

/-! ## Ring-buffer structure after a push sequence -/

/-- State of a fresh capacity-`N` store after pushing `fs`: sizes and
pointers, and slot `(head + i) % N` holds the `i`-th of the retained
(most recent `min |fs| N`) frames. -/
theorem pushList_inv (N : Nat) (hN : 1 ≤ N) (fs : List DataFrame) :
    ((RingBuffer.mk0 N).pushList fs).capacity = N ∧
    ((RingBuffer.mk0 N).pushList fs).size = min fs.length N ∧
    ((RingBuffer.mk0 N).pushList fs).head = (fs.length - min fs.length N) % N ∧
    ((RingBuffer.mk0 N).pushList fs).tail = fs.length % N ∧
    ∀ i, i < min fs.length N →
      ((RingBuffer.mk0 N).pushList fs).buffer
          ((((RingBuffer.mk0 N).pushList fs).head + i) % N) =
        some (fs.getD (fs.length - min fs.length N + i) default) := by
  induction fs using List.reverseRecOn with
  | nil =>
    refine ⟨rfl, by simp [RingBuffer.pushList, RingBuffer.mk0], ?_, ?_, ?_⟩
    · simp [RingBuffer.pushList, RingBuffer.mk0]
    · simp [RingBuffer.pushList, RingBuffer.mk0]
    · intro i hi
      simp at hi
  | append_singleton fs f ih =>
    obtain ⟨hcap, hsz, hhd, htl, hwin⟩ := ih
    have hpush : (RingBuffer.mk0 N).pushList (fs ++ [f]) =
        RingBuffer.push ((RingBuffer.mk0 N).pushList fs) f := by
      simp [RingBuffer.pushList]
    rw [hpush]
    set rb := (RingBuffer.mk0 N).pushList fs with hrb
    simp only [List.length_append, List.length_singleton]
    by_cases hlt : fs.length < N
    · have hmin : min fs.length N = fs.length := by omega
      have hmin1 : min (fs.length + 1) N = fs.length + 1 := by omega
      have hcond : rb.size < rb.capacity := by rw [hsz, hcap, hmin]; omega
      have hLmod : fs.length % N = fs.length := Nat.mod_eq_of_lt hlt
      have hhd0 : rb.head = 0 := by rw [hhd, hmin]; simp
      rw [hmin1]
      simp only [RingBuffer.push, hcond, if_true, if_pos]
      refine ⟨hcap, ?_, ?_, ?_, ?_⟩
      · rw [hsz, hmin]
      · rw [hhd0]
        simp
      · rw [htl, hLmod, hcap]
      · intro i hi
        have hiN : i < N := by omega
        rw [hhd0]
        simp only [Nat.zero_add, Nat.mod_eq_of_lt hiN]
        by_cases hieq : i = fs.length
        · subst hieq
          rw [htl, hLmod]
          simp only [if_pos rfl]
          have h1 : fs.length + 1 - (fs.length + 1) + fs.length = fs.length := by omega
          rw [h1]
          simp [List.getD_eq_getElem?_getD, List.getElem?_concat_length]
        · have hne : i ≠ rb.tail := by rw [htl, hLmod]; exact hieq
          rw [if_neg hne]
          have hiL : i < fs.length := by omega
          have h1 : fs.length + 1 - (fs.length + 1) + i = i := by omega
          rw [h1]
          have h2 := hwin i (by omega)
          rw [hhd0] at h2
          simp only [Nat.zero_add, Nat.mod_eq_of_lt hiN, hmin] at h2
          have h3 : fs.length - fs.length + i = i := by omega
          rw [h3] at h2
          rw [h2]
          congr 1
          rw [List.getD_eq_getElem?_getD, List.getD_eq_getElem?_getD,
            List.getElem?_append_left hiL]
    · have hge : N ≤ fs.length := by omega
      have hmin : min fs.length N = N := by omega
      have hmin1 : min (fs.length + 1) N = N := by omega
      have hcond : ¬ rb.size < rb.capacity := by rw [hsz, hcap, hmin]; omega
      rw [hmin1]
      simp only [RingBuffer.push, hcond, if_false, if_neg, not_false_iff]
      refine ⟨hcap, ?_, ?_, ?_, ?_⟩
      · rw [hsz, hmin]
      · rw [hcap, hhd, hmin, Nat.mod_add_mod]
        congr 1
        omega
      · rw [hcap, htl, Nat.mod_add_mod]
      · intro i hi
        rw [hcap, hhd, hmin, Nat.mod_add_mod, Nat.add_assoc ((fs.length - N) % N) 1 i,
          Nat.mod_add_mod, ← Nat.add_assoc]
        by_cases hieq : i = N - 1
        · subst hieq
          have hpos : (fs.length - N + 1 + (N - 1)) % N = rb.tail := by
            rw [htl]
            congr 1
            omega
          rw [hpos, if_pos rfl]
          have h1 : fs.length + 1 - N + (N - 1) = fs.length := by omega
          rw [h1]
          simp [List.getD_eq_getElem?_getD, List.getElem?_concat_length]
        · have hiN1 : i < N - 1 := by omega
          have hne : (fs.length - N + 1 + i) % N ≠ rb.tail := by
            rw [htl]
            intro heq
            have hle : fs.length - N + 1 + i ≤ fs.length := by omega
            have hdvd : N ∣ fs.length - (fs.length - N + 1 + i) :=
              (Nat.modEq_iff_dvd' hle).mp heq
            have hsub : fs.length - (fs.length - N + 1 + i) = N - 1 - i := by omega
            rw [hsub] at hdvd
            have := Nat.le_of_dvd (by omega) hdvd
            omega
          rw [if_neg hne]
          have h2 := hwin (i + 1) (by omega)
          rw [hhd, hmin, Nat.mod_add_mod] at h2
          have hidx2 : fs.length - N + (i + 1) = fs.length - N + 1 + i := by omega
          rw [hidx2] at h2
          rw [h2]
          have hlt2 : fs.length - N + 1 + i < fs.length := by omega
          have h4 : fs.length + 1 - N + i = fs.length - N + 1 + i := by omega
          rw [h4]
          congr 1
          rw [List.getD_eq_getElem?_getD, List.getD_eq_getElem?_getD,
            List.getElem?_append_left hlt2]

/-- Logical reads after a push sequence: index `i` (below the retained
count) reads the `i`-th retained frame. -/
theorem ringGet_pushList (N : Nat) (hN : 1 ≤ N) (fs : List DataFrame) (i : Nat)
    (hi : i < min fs.length N) :
    ((RingBuffer.mk0 N).pushList fs).get (Int.ofNat i) =
      some ((storedFrames N fs).getD i default) := by
  obtain ⟨hcap, hsz, hhd, htl, hwin⟩ := pushList_inv N hN fs
  have hnotlt : ¬ (Int.ofNat i < 0 ∨ ((((RingBuffer.mk0 N).pushList fs).size : Nat) : Int) ≤
      Int.ofNat i) := by
    rw [hsz]
    have h1 : Int.ofNat i = (i : Int) := rfl
    rw [h1]
    push_neg
    exact ⟨Int.natCast_nonneg i, by exact_mod_cast hi⟩
  rw [RingBuffer.get, if_neg hnotlt, hcap]
  have htoNat : (Int.ofNat i).toNat = i := rfl
  rw [htoNat]
  rw [hwin i hi]
  congr 1
  rw [storedFrames, List.getD_eq_getElem?_getD, List.getD_eq_getElem?_getD,
    List.getElem?_drop]

/-- Out-of-range reads are absent. -/
theorem ringGet_outOfRange (rb : RingBuffer) (j : Int)
    (hj : j < 0 ∨ (rb.size : Int) ≤ j) : rb.get j = none := by
  rw [RingBuffer.get, if_pos hj]

/-- C4.  After pushing `N + K` frames (`K > 0`) into a fresh store of
capacity `N ≥ 1`: the size is `N`, `get 0` is the (0-based) `K`-th pushed
frame, `get i` is pushed frame `K + i` for every `i < N` (exactly the most
recent `N` frames, in insertion order), and `get` is absent outside
`[0, size)`. -/
theorem spec_C4_ring_eviction (N K : Nat) (hN : 1 ≤ N) (hK : 0 < K)
    (fs : List DataFrame) (hlen : fs.length = N + K) :
    ((RingBuffer.mk0 N).pushList fs).size = N ∧
    ((RingBuffer.mk0 N).pushList fs).get 0 = some (fs.getD K default) ∧
    (∀ i : Nat, i < N →
      ((RingBuffer.mk0 N).pushList fs).get (Int.ofNat i) = some (fs.getD (K + i) default)) ∧
    (∀ j : Int, j < 0 ∨ (N : Int) ≤ j → ((RingBuffer.mk0 N).pushList fs).get j = none) := by
  obtain ⟨hcap, hsz, hhd, htl, hwin⟩ := pushList_inv N hN fs
  have hmin : min fs.length N = N := by omega
  have hszN : ((RingBuffer.mk0 N).pushList fs).size = N := by rw [hsz, hmin]
  have hget : ∀ i : Nat, i < N →
      ((RingBuffer.mk0 N).pushList fs).get (Int.ofNat i) = some (fs.getD (K + i) default) := by
    intro i hi
    have h := ringGet_pushList N hN fs i (by omega)
    rw [h]
    congr 1
    rw [storedFrames, List.getD_eq_getElem?_getD, List.getD_eq_getElem?_getD,
      List.getElem?_drop]
    congr 2
    omega
  refine ⟨hszN, ?_, hget, ?_⟩
  · have h := hget 0 (by omega)
    simpa using h
  · intro j hj
    apply ringGet_outOfRange
    rw [hszN]
    exact hj

/-! ## Incremental statistics -/

/-- `IncrementalStats.update` pointwise, via `upd1`. -/
theorem update_apply (st : IncStats) (ch : Nat) (v : JSNum) (c : Nat) :
    IncStats.update st ch v c =
      if c = ch then some (upd1 ((st ch).getD freshEntry) v) else st c := by
  cases v <;> rfl

/-- The per-frame update loop pointwise: channel `ch` is touched exactly
when the frame covers it, and then with the frame's value at `ch`. -/
theorem updFrameGo_apply (vs : List JSNum) (st : IncStats) (i ch : Nat) :
    updFrameGo st i vs ch =
      if i ≤ ch ∧ ch < i + vs.length then
        some (upd1 ((st ch).getD freshEntry) (vs.getD (ch - i) .nan))
      else st ch := by
  induction vs generalizing st i with
  | nil =>
    rw [updFrameGo, if_neg (by simp)]
  | cons v vs ih =>
    rw [updFrameGo, ih]
    by_cases hch : ch = i
    · subst hch
      rw [if_neg (by omega), if_pos (by simp only [List.length_cons]; omega)]
      rw [update_apply, if_pos rfl]
      simp
    · by_cases hrange : i + 1 ≤ ch ∧ ch < i + 1 + vs.length
      · rw [if_pos hrange,
          if_pos (show ch ≥ i ∧ ch < i + (v :: vs).length by
            simp only [List.length_cons]; omega)]
        rw [update_apply, if_neg hch]
        have h1 : ch - i = (ch - (i + 1)) + 1 := by omega
        rw [h1]
        rfl
      · rw [if_neg hrange,
          if_neg (show ¬ (i ≤ ch ∧ ch < i + (v :: vs).length) by
            simp only [List.length_cons]; omega)]
        rw [update_apply, if_neg hch]

/-- Minimum-with-default over an appended value. -/
theorem listMinD_concat (l : List ℚ) (q d : ℚ) :
    listMinD (l ++ [q]) d = if l = [] then q else Min.min (listMinD l d) q := by
  cases l with
  | nil => simp [listMinD]
  | cons x xs => simp [listMinD, List.foldl_append]

/-- Maximum-with-default over an appended value. -/
theorem listMaxD_concat (l : List ℚ) (q d : ℚ) :
    listMaxD (l ++ [q]) d = if l = [] then q else Max.max (listMaxD l d) q := by
  cases l with
  | nil => simp [listMaxD]
  | cons x xs => simp [listMaxD, List.foldl_append]

/-- The channel trace of an appended frame. -/
theorem chanTrace_concat (frames : List (List JSNum)) (vs : List JSNum) (ch : Nat) :
    chanTrace (frames ++ [vs]) ch = chanTrace frames ch ++ (vs.get? ch).toList := by
  rw [chanTrace, chanTrace, List.filterMap_append, List.filterMap_cons, List.filterMap_nil]
  cases h : vs.get? ch <;> simp

/-- The finite values of an appended value. -/
theorem finiteVals_concat (l : List JSNum) (v : JSNum) :
    finiteVals (l ++ [v]) = finiteVals l ++ (v.toQ).toList := by
  rw [finiteVals, finiteVals, List.filterMap_append]
  cases v <;> simp [JSNum.toQ]

/-- The statistics entry of channel `ch` after a frame sequence: present
exactly when some frame covered `ch`, and then its fields are the fold of
the finite values recorded there (`0`s while no finite value arrived). -/
theorem statsAfterFrames_apply (frames : List (List JSNum)) (ch : Nat) :
    statsAfterFrames frames ch =
      if chanTrace frames ch = [] then none
      else some ⟨listMinD (finiteVals (chanTrace frames ch)) 0,
                 listMaxD (finiteVals (chanTrace frames ch)) 0,
                 (finiteVals (chanTrace frames ch)).sum,
                 (finiteVals (chanTrace frames ch)).length,
                 (finiteVals (chanTrace frames ch)).getLastD 0⟩ := by
  induction frames using List.reverseRecOn with
  | nil =>
    simp [statsAfterFrames, chanTrace, IncStats.empty]
  | append_singleton frames vs ih =>
    have hfold : statsAfterFrames (frames ++ [vs]) =
        (statsAfterFrames frames).updateFrame vs := by
      rw [statsAfterFrames, statsAfterFrames, List.foldl_append]
      rfl
    rw [hfold, IncStats.updateFrame, updFrameGo_apply, chanTrace_concat]
    by_cases hch : ch < vs.length
    · have hget : vs.get? ch = some (vs.getD ch .nan) := by
        rw [List.get?_eq_getElem?, List.getD_eq_getElem?_getD, List.getElem?_eq_getElem hch]
        rfl
      rw [if_pos (by omega), hget, ih]
      simp only [Nat.sub_zero, Option.toList_some]
      cases hw : vs.getD ch JSNum.nan with
      | finite q =>
        by_cases hemp : chanTrace frames ch = []
        · rw [if_pos hemp, hemp, if_neg (by simp)]
          simp [upd1, freshEntry, finiteVals, listMinD, listMaxD, JSNum.toQ]
        · rw [if_neg hemp, if_neg (by simp [hemp])]
          simp only [Option.getD_some]
          have hfv : finiteVals (chanTrace frames ch ++ [JSNum.finite q]) =
              finiteVals (chanTrace frames ch) ++ [q] := by
            rw [finiteVals_concat]
            rfl
          rw [hfv, upd1]
          simp only [Option.some.injEq]
          by_cases hfe : finiteVals (chanTrace frames ch) = []
          · simp [hfe, listMinD, listMaxD]
          · have hcount : (finiteVals (chanTrace frames ch)).length ≠ 0 := by
              simpa [List.length_eq_zero] using hfe
            rw [listMinD_concat, listMaxD_concat, if_neg hfe, if_neg hfe,
              if_neg hcount, if_neg hcount]
            simp [List.getLastD_concat]
      | nan =>
        by_cases hemp : chanTrace frames ch = []
        · rw [if_pos hemp, hemp, if_neg (by simp)]
          simp [upd1, freshEntry, finiteVals, listMinD, listMaxD, JSNum.toQ]
        · rw [if_neg hemp, if_neg (by simp [hemp])]
          simp only [Option.getD_some]
          have hfv : finiteVals (chanTrace frames ch ++ [JSNum.nan]) =
              finiteVals (chanTrace frames ch) := by
            rw [finiteVals_concat]
            simp [JSNum.toQ]
          rw [hfv]
          rfl
      | posInf =>
        by_cases hemp : chanTrace frames ch = []
        · rw [if_pos hemp, hemp, if_neg (by simp)]
          simp [upd1, freshEntry, finiteVals, listMinD, listMaxD, JSNum.toQ]
        · rw [if_neg hemp, if_neg (by simp [hemp])]
          simp only [Option.getD_some]
          have hfv : finiteVals (chanTrace frames ch ++ [JSNum.posInf]) =
              finiteVals (chanTrace frames ch) := by
            rw [finiteVals_concat]
            simp [JSNum.toQ]
          rw [hfv]
          rfl
      | negInf =>
        by_cases hemp : chanTrace frames ch = []
        · rw [if_pos hemp, hemp, if_neg (by simp)]
          simp [upd1, freshEntry, finiteVals, listMinD, listMaxD, JSNum.toQ]
        · rw [if_neg hemp, if_neg (by simp [hemp])]
          simp only [Option.getD_some]
          have hfv : finiteVals (chanTrace frames ch ++ [JSNum.negInf]) =
              finiteVals (chanTrace frames ch) := by
            rw [finiteVals_concat]
            simp [JSNum.toQ]
          rw [hfv]
          rfl
    · have hget : vs.get? ch = none := by
        rw [List.get?_eq_getElem?, List.getElem?_eq_none]
        omega
      rw [if_neg (by omega), hget, ih]
      simp

/-- The statistics component of an `addFrame` sequence. -/
theorem addFrameList_stats (rb : RingBuffer) (st : IncStats)
    (pushes : List (ℚ × List JSNum)) :
    (addFrameList rb st pushes).2 =
      (pushes.map Prod.snd).foldl IncStats.updateFrame st := by
  induction pushes generalizing rb st with
  | nil => rfl
  | cons p ps ih =>
    rw [addFrameList, List.foldl_cons, List.map_cons, List.foldl_cons]
    exact ih (rb.push ⟨p.1, p.2⟩) (st.updateFrame p.2)

/-- The ring component of an `addFrame` sequence. -/
theorem addFrameList_ring (rb : RingBuffer) (st : IncStats)
    (pushes : List (ℚ × List JSNum)) :
    (addFrameList rb st pushes).1 =
      rb.pushList (pushes.map (fun p => ⟨p.1, p.2⟩)) := by
  induction pushes generalizing rb st with
  | nil => rfl
  | cons p ps ih =>
    rw [addFrameList, List.foldl_cons, List.map_cons, RingBuffer.pushList, List.foldl_cons]
    exact ih (rb.push ⟨p.1, p.2⟩) (st.updateFrame p.2)

/-- `getChannelStats` as a function of the recorded finite values: absent
until a finite value arrived, else min/max/avg/current over them. -/
theorem statsGet_eq (frames : List (List JSNum)) (ch : Nat) :
    IncStats.get (statsAfterFrames frames) ch =
      if finiteVals (chanTrace frames ch) = [] then none
      else some ⟨listMinD (finiteVals (chanTrace frames ch)) 0,
                 listMaxD (finiteVals (chanTrace frames ch)) 0,
                 (finiteVals (chanTrace frames ch)).sum /
                   ((finiteVals (chanTrace frames ch)).length : ℚ),
                 (finiteVals (chanTrace frames ch)).getLastD 0⟩ := by
  have happ := statsAfterFrames_apply frames ch
  unfold IncStats.get
  rw [happ]
  by_cases hT : chanTrace frames ch = []
  · rw [if_pos hT]
    have hV : finiteVals (chanTrace frames ch) = [] := by rw [hT]; rfl
    rw [if_pos hV]
  · rw [if_neg hT]
    by_cases hV : finiteVals (chanTrace frames ch) = []
    · have hc : (finiteVals (chanTrace frames ch)).length = 0 := by rw [hV]; rfl
      rw [if_pos hV]
      simp [hc]
    · have hc : (finiteVals (chanTrace frames ch)).length ≠ 0 := by
        simpa [List.length_eq_zero] using hV
      rw [if_neg hV]
      simp [hc]

/-- When every recorded value is finite, none is dropped by the finiteness
filter. -/
theorem finiteVals_length_of_all_finite (l : List JSNum)
    (h : ∀ v ∈ l, v.isFinite = true) : (finiteVals l).length = l.length := by
  induction l with
  | nil => rfl
  | cons v vs ih =>
    have hv := h v (by simp)
    cases v with
    | finite q =>
      rw [show finiteVals (JSNum.finite q :: vs) = q :: finiteVals vs from rfl]
      simp only [List.length_cons]
      rw [ih (fun w hw => h w (by simp [hw]))]
    | nan => simp [JSNum.isFinite] at hv
    | posInf => simp [JSNum.isFinite] at hv
    | negInf => simp [JSNum.isFinite] at hv

/-- Every value in a channel trace of a push sequence was recorded there by
one of the pushed frames. -/
theorem mem_chanTrace (pushes : List (ℚ × List JSNum)) (ch : Nat) (v : JSNum)
    (hv : v ∈ chanTrace (pushes.map Prod.snd) ch) :
    ∃ p ∈ pushes, p.2.get? ch = some v := by
  rw [chanTrace] at hv
  obtain ⟨vs, hvs, hsome⟩ := List.mem_filterMap.mp hv
  obtain ⟨p, hp, rfl⟩ := List.mem_map.mp hvs
  exact ⟨p, hp, hsome⟩

/-- C5.  Channel statistics after a push sequence whose values on channel
`ch` are all finite: absent exactly when nothing was recorded on `ch`, and
otherwise min, max, `avg = sum / count` and `current = last value` over all
values pushed on that channel, derived from the incrementally maintained
entry.  (The first conjunct: every recorded sample is counted.) -/
theorem spec_C5_channel_stats (N : Nat) (pushes : List (ℚ × List JSNum)) (ch : Nat)
    (hfin : ∀ p ∈ pushes, ∀ v, p.2.get? ch = some v → v.isFinite = true) :
    (finiteVals (chanTrace (pushes.map Prod.snd) ch)).length =
        (chanTrace (pushes.map Prod.snd) ch).length ∧
    IncStats.get (addFrameList (RingBuffer.mk0 N) IncStats.empty pushes).2 ch =
      (if chanTrace (pushes.map Prod.snd) ch = [] then none
       else some ⟨listMinD (finiteVals (chanTrace (pushes.map Prod.snd) ch)) 0,
                  listMaxD (finiteVals (chanTrace (pushes.map Prod.snd) ch)) 0,
                  (finiteVals (chanTrace (pushes.map Prod.snd) ch)).sum /
                    ((finiteVals (chanTrace (pushes.map Prod.snd) ch)).length : ℚ),
                  (finiteVals (chanTrace (pushes.map Prod.snd) ch)).getLastD 0⟩) := by
  have hTfin : ∀ v ∈ chanTrace (pushes.map Prod.snd) ch, v.isFinite = true := by
    intro v hv
    obtain ⟨p, hp, hsome⟩ := mem_chanTrace pushes ch v hv
    exact hfin p hp v hsome
  have hlen := finiteVals_length_of_all_finite _ hTfin
  have hst : (addFrameList (RingBuffer.mk0 N) IncStats.empty pushes).2 =
      statsAfterFrames (pushes.map Prod.snd) := addFrameList_stats _ _ _
  refine ⟨hlen, ?_⟩
  rw [hst, statsGet_eq]
  have hiff : finiteVals (chanTrace (pushes.map Prod.snd) ch) = [] ↔
      chanTrace (pushes.map Prod.snd) ch = [] := by
    rw [← List.length_eq_zero, ← List.length_eq_zero, hlen]
  by_cases hT : chanTrace (pushes.map Prod.snd) ch = []
  · rw [if_pos hT, if_pos (hiff.mpr hT)]
  · rw [if_neg hT, if_neg (fun hV => hT (hiff.mp hV))]

/-- Witness for C5: pushing `[3, -1, 4, 1, 5]` on one channel yields
`{min := -1, max := 5, avg := 2.4, current := 5}`. -/
theorem spec_C5_channel_stats_witness :
    IncStats.get
        (addFrameList (RingBuffer.mk0 10) IncStats.empty
          [(0, [JSNum.finite 3]), (1, [JSNum.finite (-1)]), (2, [JSNum.finite 4]),
           (3, [JSNum.finite 1]), (4, [JSNum.finite 5])]).2 0 =
      some ⟨-1, 5, 2.4, 5⟩ := by
  rw [(spec_C5_channel_stats 10
    [(0, [JSNum.finite 3]), (1, [JSNum.finite (-1)]), (2, [JSNum.finite 4]),
     (3, [JSNum.finite 1]), (4, [JSNum.finite 5])] 0 (by decide)).2]
  have h1 : chanTrace (List.map Prod.snd
      [((0 : ℚ), [JSNum.finite 3]), (1, [JSNum.finite (-1)]), (2, [JSNum.finite 4]),
       (3, [JSNum.finite 1]), (4, [JSNum.finite 5])]) 0 =
      [JSNum.finite 3, JSNum.finite (-1), JSNum.finite 4, JSNum.finite 1,
       JSNum.finite 5] := by decide
  rw [h1]
  have h2 : finiteVals [JSNum.finite 3, JSNum.finite (-1), JSNum.finite 4,
      JSNum.finite 1, JSNum.finite 5] = [3, -1, 4, 1, 5] := by decide
  rw [if_neg (by decide), h2]
  have hmin : listMinD [(3 : ℚ), -1, 4, 1, 5] 0 = -1 := by decide
  have hmax : listMaxD [(3 : ℚ), -1, 4, 1, 5] 0 = 5 := by decide
  have hlast : ([(3 : ℚ), -1, 4, 1, 5]).getLastD 0 = 5 := by decide
  rw [hmin, hmax, hlast]
  norm_num [List.sum]

/-- C10.  Non-finite values are stored but excluded from statistics:
(1) an `update` with a non-finite value changes no observable channel
statistic; (2) a frame whose value at `ch` is non-finite contributes
nothing to the selection fold at `ch`; (3) a channel all of whose pushed
values are non-finite reports absent statistics while its frames stay
retrievable (with the non-finite values intact) from the store. -/
theorem spec_C10_nonfinite_excluded :
    (∀ (st : IncStats) (ch : Nat) (v : JSNum), v.isFinite = false →
       ∀ c, IncStats.get (IncStats.update st ch v) c = IncStats.get st c) ∧
    (∀ (frames : List DataFrame) (f : DataFrame) (ch : Nat),
       (∀ v, f.values.get? ch = some v → v.isFinite = false) →
       selChannelFold (frames ++ [f]) ch = selChannelFold frames ch) ∧
    (∀ (N : Nat) (pushes : List (ℚ × List JSNum)) (ch : Nat),
       1 ≤ N → pushes.length ≤ N →
       (∀ p ∈ pushes, ∀ v, p.2.get? ch = some v → v.isFinite = false) →
       IncStats.get (addFrameList (RingBuffer.mk0 N) IncStats.empty pushes).2 ch = none ∧
       ∀ i : Nat, i < pushes.length →
         ((addFrameList (RingBuffer.mk0 N) IncStats.empty pushes).1).get (Int.ofNat i) =
           some ⟨(pushes.getD i default).1, (pushes.getD i default).2⟩) := by
  refine ⟨?_, ?_, ?_⟩
  · intro st ch v hv c
    by_cases hc : c = ch
    · subst hc
      have hupd : IncStats.update st c v c = some (upd1 ((st c).getD freshEntry) v) := by
        rw [update_apply, if_pos rfl]
      have hskip : upd1 ((st c).getD freshEntry) v = (st c).getD freshEntry := by
        cases v with
        | finite q => simp [JSNum.isFinite] at hv
        | nan => rfl
        | posInf => rfl
        | negInf => rfl
      rw [IncStats.get, IncStats.get, hupd, hskip]
      cases hst : st c with
      | none => simp [freshEntry]
      | some e => simp
    · have hupd : IncStats.update st ch v c = st c := by
        rw [update_apply, if_neg hc]
      rw [IncStats.get, IncStats.get, hupd]
  · intro frames f ch hnf
    rw [selChannelFold, selChannelFold, List.foldl_append, List.foldl_cons, List.foldl_nil]
    cases hg : f.values.get? ch with
    | none => rfl
    | some v =>
      have := hnf v hg
      cases v with
      | finite q => simp [JSNum.isFinite] at this
      | nan => rfl
      | posInf => rfl
      | negInf => rfl
  · intro N pushes ch hN hlen hnf
    constructor
    · have hst : (addFrameList (RingBuffer.mk0 N) IncStats.empty pushes).2 =
          statsAfterFrames (pushes.map Prod.snd) := addFrameList_stats _ _ _
      rw [hst, statsGet_eq]
      have hV : finiteVals (chanTrace (pushes.map Prod.snd) ch) = [] := by
        rw [finiteVals, List.filterMap_eq_nil]
        intro v hv
        obtain ⟨p, hp, hsome⟩ := mem_chanTrace pushes ch v hv
        have := hnf p hp v hsome
        cases v with
        | finite q => simp [JSNum.isFinite] at this
        | nan => rfl
        | posInf => rfl
        | negInf => rfl
      rw [if_pos hV]
    · intro i hi
      have hring : (addFrameList (RingBuffer.mk0 N) IncStats.empty pushes).1 =
          (RingBuffer.mk0 N).pushList (pushes.map (fun p => ⟨p.1, p.2⟩)) :=
        addFrameList_ring _ _ _
      have hmlen : (pushes.map (fun p => (⟨p.1, p.2⟩ : DataFrame))).length = pushes.length := by
        rw [List.length_map]
      have hget := ringGet_pushList N hN (pushes.map (fun p => ⟨p.1, p.2⟩)) i
        (by rw [hmlen]; omega)
      rw [hring, hget]
      have hdrop : storedFrames N (pushes.map (fun p => (⟨p.1, p.2⟩ : DataFrame))) =
          pushes.map (fun p => (⟨p.1, p.2⟩ : DataFrame)) := by
        rw [storedFrames, hmlen]
        have : pushes.length - min pushes.length N = 0 := by omega
        rw [this, List.drop_zero]
      rw [hdrop]
      congr 1
      rw [List.getD_eq_getElem?_getD, List.getD_eq_getElem?_getD, List.getElem?_map]
      have hsome : pushes[i]? = some (pushes.getD i default) := by
        rw [List.getD_eq_getElem?_getD, List.getElem?_eq_getElem hi]
        rfl
      rw [hsome]
      rfl

/-- Witness for C4 at `N = 2`, `K = 1`, three pushed frames. -/
theorem spec_C4_ring_eviction_witness :
    (1 ≤ 2 ∧ 0 < 1 ∧
      ([⟨0, [JSNum.finite 1]⟩, ⟨1, [JSNum.finite 2]⟩, ⟨2, [JSNum.finite 3]⟩] :
        List DataFrame).length = 2 + 1) ∧
    ((RingBuffer.mk0 2).pushList
        [⟨0, [JSNum.finite 1]⟩, ⟨1, [JSNum.finite 2]⟩, ⟨2, [JSNum.finite 3]⟩]).size = 2 ∧
    ((RingBuffer.mk0 2).pushList
        [⟨0, [JSNum.finite 1]⟩, ⟨1, [JSNum.finite 2]⟩, ⟨2, [JSNum.finite 3]⟩]).get 0 =
      some (⟨1, [JSNum.finite 2]⟩ : DataFrame) := by
  have h := spec_C4_ring_eviction 2 1 (by decide) (by decide)
    [⟨0, [JSNum.finite 1]⟩, ⟨1, [JSNum.finite 2]⟩, ⟨2, [JSNum.finite 3]⟩] (by decide)
  exact ⟨⟨by decide, by decide, by decide⟩, h.1, by rw [h.2.1]; decide⟩

/-! ## Selection ranges -/

/-- An empty inclusive integer range. -/
theorem intRangeIncl_empty (a b : Int) (h : b < a) : intRangeIncl a b = [] := by
  rw [intRangeIncl]
  have h0 : (b + 1 - a).toNat = 0 := by omega
  rw [h0]
  rfl

/-- Peeling the first element of an inclusive integer range. -/
theorem intRangeIncl_cons (a b : Int) (h : a ≤ b) :
    intRangeIncl a b = a :: intRangeIncl (a + 1) b := by
  rw [intRangeIncl, intRangeIncl]
  have h1 : (b + 1 - a).toNat = (b + 1 - (a + 1)).toNat + 1 := by omega
  rw [h1, List.range_succ_eq_map, List.map_cons, List.map_map]
  refine List.cons_eq_cons.mpr ⟨by simp, ?_⟩
  apply List.map_congr_left
  intro k _
  simp only [Function.comp_apply]
  push_cast
  omega

/-- Collecting `rb.get` over an inclusive range below the size bound
yields the stored frames at the clamped nonnegative indices. -/
theorem filterMap_get_range (rb : RingBuffer) (S : List DataFrame)
    (hsz : rb.size = S.length)
    (hget : ∀ i : Nat, i < S.length → rb.get (Int.ofNat i) = some (S.getD i default)) :
    ∀ (n : Nat) (a b : Int), (b + 1 - a).toNat = n → b ≤ (S.length : Int) - 1 →
      (intRangeIncl a b).filterMap rb.get =
        (List.range' (max a 0).toNat (b + 1 - max a 0).toNat).map
          (fun k => S.getD k default) := by
  intro n
  induction n with
  | zero =>
    intro a b h0 hb
    rw [intRangeIncl_empty a b (by omega)]
    have hc : (b + 1 - max a 0).toNat = 0 := by omega
    rw [hc]
    rfl
  | succ n ih =>
    intro a b hn hb
    have hab : a ≤ b := by omega
    rw [intRangeIncl_cons a b hab, List.filterMap_cons]
    by_cases ha : a < 0
    · have hget0 : rb.get a = none := ringGet_outOfRange rb a (Or.inl ha)
      rw [hget0, ih (a + 1) b (by omega) hb]
      have hm : max a 0 = max (a + 1) 0 := by omega
      rw [hm]
    · push_neg at ha
      have halt : a.toNat < S.length := by omega
      have haeq : a = Int.ofNat a.toNat := by
        rw [Int.ofNat_eq_natCast]
        exact (Int.toNat_of_nonneg ha).symm
      have hga : rb.get a = some (S.getD a.toNat default) := by
        have h0 := hget a.toNat halt
        rw [← haeq] at h0
        exact h0
      rw [hga]
      have hmax : max a 0 = a := by omega
      rw [hmax, show (b + 1 - a).toNat = n + 1 from hn, List.range'_succ, List.map_cons]
      refine List.cons_eq_cons.mpr ⟨rfl, ?_⟩
      rw [ih (a + 1) b (by omega) hb]
      have hm1 : max (a + 1) 0 = a + 1 := by omega
      rw [hm1]
      have he1 : (a + 1).toNat = a.toNat + 1 := by omega
      have he2 : (b + 1 - (a + 1)).toNat = n := by omega
      rw [he1, he2]

/-- The retained-frame count after a push sequence. -/
theorem storedFrames_length (N : Nat) (fs : List DataFrame) :
    (storedFrames N fs).length = min fs.length N := by
  rw [storedFrames, List.length_drop]
  omega

/-- `getRange` on a pushed store: the retained frames at the clamped
indices of the closed range. -/
theorem getRange_pushList (N : Nat) (hN : 1 ≤ N) (fs : List DataFrame) (start stop : Int) :
    ((RingBuffer.mk0 N).pushList fs).getRange start stop =
      (List.range' (max start 0).toNat
          (rangePointCount (min fs.length N) start stop)).map
        (fun k => (storedFrames N fs).getD k default) := by
  obtain ⟨hcap, hsz, hhd, htl, hwin⟩ := pushList_inv N hN fs
  have hS : (storedFrames N fs).length = min fs.length N := storedFrames_length N fs
  have hsz2 : ((RingBuffer.mk0 N).pushList fs).size = (storedFrames N fs).length := by
    rw [hsz, hS]
  have hget : ∀ i : Nat, i < (storedFrames N fs).length →
      ((RingBuffer.mk0 N).pushList fs).get (Int.ofNat i) =
        some ((storedFrames N fs).getD i default) := by
    intro i hi
    exact ringGet_pushList N hN fs i (by omega)
  rw [RingBuffer.getRange]
  have hb : min stop ((((RingBuffer.mk0 N).pushList fs).size : Int) - 1) ≤
      ((storedFrames N fs).length : Int) - 1 := by
    rw [hsz2]
    omega
  rw [filterMap_get_range ((RingBuffer.mk0 N).pushList fs) (storedFrames N fs) hsz2 hget
    (min stop ((((RingBuffer.mk0 N).pushList fs).size : Int) - 1) + 1 - start).toNat
    start _ rfl hb]
  rw [hsz2, hS, rangePointCount]

/-- The finite channel-`ch` values of an appended frame. -/
theorem selVals_concat (frames : List DataFrame) (f : DataFrame) (ch : Nat) :
    selVals (frames ++ [f]) ch =
      selVals frames ch ++ ((f.values.get? ch).bind JSNum.toQ).toList := by
  rw [selVals, selVals, List.filterMap_append, List.filterMap_cons, List.filterMap_nil]
  cases h : (f.values.get? ch).bind JSNum.toQ <;> simp

/-- The per-channel selection fold computes min, max, sum and count of the
range's finite values at that channel. -/
theorem selChannelFold_eq (frames : List DataFrame) (ch : Nat) :
    selChannelFold frames ch =
      (listMinD (selVals frames ch) 0, listMaxD (selVals frames ch) 0,
       (selVals frames ch).sum, (selVals frames ch).length) := by
  induction frames using List.reverseRecOn with
  | nil => rfl
  | append_singleton frames f ih =>
    rw [selChannelFold, List.foldl_append, List.foldl_cons, List.foldl_nil,
      ← selChannelFold, ih, selVals_concat]
    cases hg : f.values.get? ch with
    | none => simp
    | some v =>
      cases v with
      | finite q =>
        simp only [Option.some_bind, JSNum.toQ, Option.toList_some]
        by_cases hV : selVals frames ch = []
        · rw [hV]
          simp [listMinD, listMaxD]
        · have hlen0 : (selVals frames ch).length ≠ 0 := by
            simpa [List.length_eq_zero] using hV
          rw [listMinD_concat, listMaxD_concat, if_neg hV, if_neg hV]
          simp [hlen0]
      | nan => simp [JSNum.toQ]
      | posInf => simp [JSNum.toQ]
      | negInf => simp [JSNum.toQ]

/-- `getSelectionStats`, restated over the range's frames: absent below two
points, else point count, first-to-last duration, frequency =
pointCount / durationSeconds, and per-channel min/max/avg over the raw
finite values (zeros for a channel with none). -/
theorem getSelectionStats_eq (rb : RingBuffer) (start stop : Int) (cc : Nat) :
    getSelectionStats rb start stop cc =
      if (rb.getRange start stop).length < 2 then none
      else
        some { startIndex := start, endIndex := stop,
               pointCount := (rb.getRange start stop).length,
               duration := ((rb.getRange start stop).getLastD default).timestamp -
                 ((rb.getRange start stop).headD default).timestamp,
               frequency := ((rb.getRange start stop).length : ℚ) /
                 ((((rb.getRange start stop).getLastD default).timestamp -
                   ((rb.getRange start stop).headD default).timestamp) / 1000),
               channels := (List.range cc).map (fun ch =>
                 { id := ch,
                   min := if selVals (rb.getRange start stop) ch = [] then 0
                          else listMinD (selVals (rb.getRange start stop) ch) 0,
                   max := if selVals (rb.getRange start stop) ch = [] then 0
                          else listMaxD (selVals (rb.getRange start stop) ch) 0,
                   avg := if selVals (rb.getRange start stop) ch = [] then 0
                          else (selVals (rb.getRange start stop) ch).sum /
                            ((selVals (rb.getRange start stop) ch).length : ℚ) }) } := by
  simp only [getSelectionStats]
  by_cases h2 : (rb.getRange start stop).length < 2
  · rw [if_pos h2, if_pos h2]
  · rw [if_neg h2, if_neg h2]
    refine congrArg some ?_
    congr 1
    apply List.map_congr_left
    intro ch _
    rw [selChannelFold_eq]
    by_cases hv : selVals (rb.getRange start stop) ch = []
    · have hl : (selVals (rb.getRange start stop) ch).length = 0 := by
        rw [hv]
        rfl
      simp [hv, hl]
    · have hl : 0 < (selVals (rb.getRange start stop) ch).length :=
        List.length_pos.mpr hv
      simp only [if_neg hv]
      simp [hl]

/-- The selected-slice length is the in-range point count. -/
theorem rangeSlice_length (N : Nat) (fs : List DataFrame) (start stop : Int) :
    (rangeSlice N fs start stop).length =
      rangePointCount (min fs.length N) start stop := by
  rw [rangeSlice, List.length_map, List.length_range']

/-- C6, corrected.  On a store holding the pushed frames: (a) the range
extraction returns exactly the stored points of the clamped closed range;
(b) the result is absent if and only if that range holds fewer than two
points; (c) otherwise it carries the point count, the first-to-last
duration, `frequency = pointCount / durationSeconds`, and per-channel
min/max/avg computed over the raw stored values — no coefficient is
applied anywhere (the function takes none). -/
theorem spec_C6_selection_stats_raw (N : Nat) (hN : 1 ≤ N) (fs : List DataFrame)
    (start stop : Int) (channelCount : Nat) :
    ((RingBuffer.mk0 N).pushList fs).getRange start stop = rangeSlice N fs start stop ∧
    (getSelectionStats ((RingBuffer.mk0 N).pushList fs) start stop channelCount = none ↔
      rangePointCount (min fs.length N) start stop < 2) ∧
    (2 ≤ rangePointCount (min fs.length N) start stop →
      getSelectionStats ((RingBuffer.mk0 N).pushList fs) start stop channelCount =
        some { startIndex := start, endIndex := stop,
               pointCount := rangePointCount (min fs.length N) start stop,
               duration := ((rangeSlice N fs start stop).getLastD default).timestamp -
                 ((rangeSlice N fs start stop).headD default).timestamp,
               frequency := (rangePointCount (min fs.length N) start stop : ℚ) /
                 ((((rangeSlice N fs start stop).getLastD default).timestamp -
                   ((rangeSlice N fs start stop).headD default).timestamp) / 1000),
               channels := (List.range channelCount).map (fun ch =>
                 { id := ch,
                   min := if selVals (rangeSlice N fs start stop) ch = [] then 0
                          else listMinD (selVals (rangeSlice N fs start stop) ch) 0,
                   max := if selVals (rangeSlice N fs start stop) ch = [] then 0
                          else listMaxD (selVals (rangeSlice N fs start stop) ch) 0,
                   avg := if selVals (rangeSlice N fs start stop) ch = [] then 0
                          else (selVals (rangeSlice N fs start stop) ch).sum /
                            ((selVals (rangeSlice N fs start stop) ch).length : ℚ) }) }) := by
  have hfr : ((RingBuffer.mk0 N).pushList fs).getRange start stop =
      rangeSlice N fs start stop := by
    rw [getRange_pushList N hN fs start stop, rangeSlice]
  have hlen : (((RingBuffer.mk0 N).pushList fs).getRange start stop).length =
      rangePointCount (min fs.length N) start stop := by
    rw [hfr, rangeSlice_length]
  refine ⟨hfr, ?_, ?_⟩
  · rw [getSelectionStats_eq, hlen]
    by_cases h2 : rangePointCount (min fs.length N) start stop < 2
    · rw [if_pos h2]
      simp [h2]
    · rw [if_neg h2]
      simp [h2]
  · intro h2
    rw [getSelectionStats_eq, hlen, if_neg (by omega), hfr]

/-- Witness for C6 (corrected): two stored points in range give a present
result with raw per-channel statistics. -/
theorem spec_C6_selection_stats_raw_witness :
    (1 ≤ 10 ∧
      2 ≤ rangePointCount
        (min ([⟨0, [JSNum.finite 1]⟩, ⟨500, [JSNum.finite 2]⟩] : List DataFrame).length 10)
        0 1) ∧
    (getSelectionStats
        ((RingBuffer.mk0 10).pushList [⟨0, [JSNum.finite 1]⟩, ⟨500, [JSNum.finite 2]⟩])
        0 1 1).isSome = true := by
  have h := (spec_C6_selection_stats_raw 10 (by omega)
    [⟨0, [JSNum.finite 1]⟩, ⟨500, [JSNum.finite 2]⟩] 0 1 1).2.2 (by decide)
  refine ⟨⟨by omega, by decide⟩, ?_⟩
  rw [h]
  rfl

/-- C6, counterexample to the claim as stated: on a store holding channel
values 1 and 2, the code's per-channel selection minimum is the raw 1, while
"coefficient applied before the min comparison" with coefficient -2 demands
-4; `getSelectionStats` takes no coefficient input at all. -/
theorem spec_C6_coefficient_counterexample :
    (getSelectionStats
        ((RingBuffer.mk0 10).pushList [⟨0, [JSNum.finite 1]⟩, ⟨500, [JSNum.finite 2]⟩])
        0 1 1).map (fun s => (s.channels.getD 0 ⟨0, 0, 0, 0⟩).min) = some 1 ∧
    selChannelMinSpec
        (((RingBuffer.mk0 10).pushList [⟨0, [JSNum.finite 1]⟩, ⟨500, [JSNum.finite 2]⟩]).getRange
          0 1) 0 (-2) = some (-4) ∧
    (1 : ℚ) ≠ -4 := by
  have hfr : (((RingBuffer.mk0 10).pushList
      [⟨0, [JSNum.finite 1]⟩, ⟨500, [JSNum.finite 2]⟩]).getRange 0 1) =
      [⟨0, [JSNum.finite 1]⟩, ⟨500, [JSNum.finite 2]⟩] := by decide
  refine ⟨by decide, ?_, by norm_num⟩
  rw [hfr]
  unfold selChannelMinSpec
  have hsv : (([⟨0, [JSNum.finite 1]⟩, ⟨500, [JSNum.finite 2]⟩] : List DataFrame).filterMap
      (fun f => (f.values.get? 0).bind JSNum.toQ)) = [1, 2] := by decide
  rw [hsv]
  have hm : ([1, 2] : List ℚ).map (fun x => (-2 : ℚ) * x) = [-2, -4] := by norm_num
  rw [hm]
  norm_num

/-! ## Chart data without decimation -/

/-- Below the decimation thresholds the target point count is the total. -/
theorem targetPointsFor_small (n : Nat) (h : n ≤ 50000) : targetPointsFor n = n := by
  rw [targetPointsFor, if_neg (by omega), if_neg (by omega), if_neg (by omega),
    if_neg (by omega)]

/-- The collection loop with identity picking, when every index is stored
and the slot budget suffices, collects every indexed frame in order. -/
theorem chartCollect_all (rb : RingBuffer) (S : List DataFrame)
    (hget : ∀ i : Nat, i < S.length → rb.get (Int.ofNat i) = some (S.getD i default)) :
    ∀ (idxs : List Nat) (slots : Nat), (∀ i ∈ idxs, i < S.length) →
      idxs.length ≤ slots →
      chartCollect rb idxs slots (fun i => i) =
        idxs.map (fun i => (i, S.getD i default)) := by
  intro idxs
  induction idxs with
  | nil => intro slots _ _; cases slots <;> rfl
  | cons i rest ih =>
    intro slots hmem hslots
    cases slots with
    | zero => simp at hslots
    | succ s =>
      rw [chartCollect]
      rw [hget i (hmem i (by simp))]
      rw [List.map_cons]
      refine List.cons_eq_cons.mpr ⟨rfl, ?_⟩
      exact ih s (fun j hj => hmem j (by simp [hj])) (by simpa using hslots)

/-- C7.  With at most 50 000 stored points (so total ≤ computed target) and
a nonempty store, `getChartData` applies no decimation: x-values are the
indices of every stored point in order, and channel `ch`'s series is every
stored point's value (missing channels read 0) multiplied by the channel
coefficient (default 1). -/
theorem spec_C7_no_decimation (N : Nat) (hN : 1 ≤ N) (fs : List DataFrame)
    (cc : Nat) (coefficients : List JSNum)
    (hpos : 0 < min fs.length N) (hle : min fs.length N ≤ 50000) :
    getChartData ((RingBuffer.mk0 N).pushList fs) cc coefficients =
      some ((List.range (min fs.length N)).map (fun i : Nat => (i : ℚ)),
            (List.range cc).map (fun ch =>
              (List.range (min fs.length N)).map (fun i =>
                jsMul (((storedFrames N fs).getD i default).values.getD ch (.finite 0))
                  (coefficients.getD ch (.finite 1))))) := by
  obtain ⟨hcap, hsz, hhd, htl, hwin⟩ := pushList_inv N hN fs
  have hS : (storedFrames N fs).length = min fs.length N := storedFrames_length N fs
  have hget : ∀ i : Nat, i < (storedFrames N fs).length →
      ((RingBuffer.mk0 N).pushList fs).get (Int.ofNat i) =
        some ((storedFrames N fs).getD i default) := by
    intro i hi
    exact ringGet_pushList N hN fs i (by omega)
  simp only [getChartData, hsz]
  rw [if_neg (by omega), targetPointsFor_small _ hle]
  have hngt : ¬ (min fs.length N > min fs.length N) := by omega
  rw [if_neg hngt, if_neg hngt]
  have hstep : (min fs.length N + 1 - 1) / 1 = min fs.length N := by omega
  rw [hstep]
  have hcond : ¬ (min fs.length N > min fs.length N ∧ min fs.length N > 100000) :=
    fun h => hngt h.1
  rw [if_neg hcond, if_neg hcond]
  have hidxs : List.range' 0 (min fs.length N) 1 = List.range (min fs.length N) :=
    (List.range_eq_range' (min fs.length N)).symm
  rw [hidxs]
  have hcoll := chartCollect_all ((RingBuffer.mk0 N).pushList fs) (storedFrames N fs) hget
    (List.range (min fs.length N)) (min fs.length N)
    (fun i hi => by rw [hS]; exact List.mem_range.mp hi)
    (by rw [List.length_range])
  rw [hcoll]
  have hlenm : ((List.range (min fs.length N)).map
      (fun i => (i, (storedFrames N fs).getD i default))).length = min fs.length N := by
    rw [List.length_map, List.length_range]
  rw [hlenm]
  have hrep : min fs.length N - min fs.length N = 0 := by omega
  rw [hrep]
  simp only [List.replicate_zero, List.append_nil, List.map_map]
  refine congrArg some ?_
  refine Prod.ext ?_ ?_
  · dsimp only
    apply List.map_congr_left
    intro i _
    rfl
  · dsimp only
    apply List.map_congr_left
    intro ch _
    dsimp only [Function.comp]
    apply List.map_congr_left
    intro i _
    rfl

/-- Witness for C7: two stored frames, one channel, coefficient 2. -/
theorem spec_C7_no_decimation_witness :
    (1 ≤ 10 ∧
      0 < min ([⟨0, [JSNum.finite 3]⟩, ⟨1, [JSNum.finite 4]⟩] : List DataFrame).length 10 ∧
      min ([⟨0, [JSNum.finite 3]⟩, ⟨1, [JSNum.finite 4]⟩] : List DataFrame).length 10 ≤
        50000) ∧
    getChartData
        ((RingBuffer.mk0 10).pushList [⟨0, [JSNum.finite 3]⟩, ⟨1, [JSNum.finite 4]⟩])
        1 [JSNum.finite 2] =
      some
        ((List.range
            (min ([⟨0, [JSNum.finite 3]⟩, ⟨1, [JSNum.finite 4]⟩] : List DataFrame).length
              10)).map (fun i : Nat => (i : ℚ)),
         (List.range 1).map (fun ch =>
           (List.range
               (min ([⟨0, [JSNum.finite 3]⟩, ⟨1, [JSNum.finite 4]⟩] :
                 List DataFrame).length 10)).map (fun i =>
             jsMul
               (((storedFrames 10 [⟨0, [JSNum.finite 3]⟩, ⟨1, [JSNum.finite 4]⟩]).getD i
                   default).values.getD ch (.finite 0))
               (([JSNum.finite 2] : List JSNum).getD ch (.finite 1))))) :=
  ⟨⟨by decide, by decide, by decide⟩,
   spec_C7_no_decimation 10 (by decide) [⟨0, [JSNum.finite 3]⟩, ⟨1, [JSNum.finite 4]⟩] 1
     [JSNum.finite 2] (by decide) (by decide)⟩

/-! ## Reset, frame isolation and channel-count monotonicity -/

/-- `ccUpdate` is exactly `max`. -/
theorem ccUpdate_eq_max (cc n : Nat) : ccUpdate cc n = max cc n := by
  rw [ccUpdate]
  split_ifs <;> omega

/-- `addFrameToBatch` preserves parse-field agreement. -/
theorem addFrameToBatch_parseAgree (σ σ' : ParserState) (v : List JSNum)
    (h : ParseAgree σ σ') : ParseAgree (addFrameToBatch σ v) (addFrameToBatch σ' v) := by
  obtain ⟨h1, h2, h3, h4, h5, h6, h7⟩ := h
  refine ⟨?_, ?_, ?_, ?_, ?_, ?_, ?_⟩ <;>
    simp [addFrameToBatch, scheduleIdleFlush, h1, h2, h3, h4, h5, h6, h7]

/-- One JustFloat byte preserves parse-field agreement. -/
theorem stepJustFloat_parseAgree (σ σ' : ParserState) (b : Nat)
    (h : ParseAgree σ σ') : ParseAgree (stepJustFloat σ b) (stepJustFloat σ' b) := by
  rcases σ with ⟨cc, fc, p, buf, st, fsi, exp, fw, batch, t, d⟩
  rcases σ' with ⟨cc2, fc2, p2, buf2, st2, fsi2, exp2, fw2, batch2, t2, d2⟩
  simp only [ParseAgree] at h
  obtain ⟨rfl, rfl, rfl, rfl, rfl, rfl, rfl⟩ := h
  cases st <;>
    (dsimp only [stepJustFloat]
     split_ifs <;> exact ⟨rfl, rfl, rfl, rfl, rfl, rfl, rfl⟩)

/-- One JustFloat byte never delivers. -/
theorem stepJustFloat_delivered (σ : ParserState) (b : Nat) :
    (stepJustFloat σ b).delivered = σ.delivered := by
  rcases σ with ⟨cc, fc, p, buf, st, fsi, exp, fw, batch, t, d⟩
  cases st <;>
    (dsimp only [stepJustFloat]
     split_ifs <;> rfl)

/-- One JustFloat byte never lowers the visible channel count. -/
theorem stepJustFloat_cc_mono (σ : ParserState) (b : Nat) :
    σ.channelCount ≤ (stepJustFloat σ b).channelCount := by
  rcases σ with ⟨cc, fc, p, buf, st, fsi, exp, fw, batch, t, d⟩
  cases st <;>
    (dsimp only [stepJustFloat]
     split_ifs <;>
       simp only [addFrameToBatch, scheduleIdleFlush, ccUpdate_eq_max] <;> omega)

/-- A JustFloat chunk preserves parse-field agreement. -/
theorem processJustFloat_parseAgree (data : List Nat) :
    ∀ σ σ', ParseAgree σ σ' →
      ParseAgree (processJustFloat σ data) (processJustFloat σ' data) := by
  induction data with
  | nil => intro σ σ' h; exact h
  | cons b rest ih =>
    intro σ σ' h
    exact ih _ _ (stepJustFloat_parseAgree σ σ' b h)

/-- A JustFloat chunk never delivers. -/
theorem processJustFloat_delivered (data : List Nat) :
    ∀ σ, (processJustFloat σ data).delivered = σ.delivered := by
  induction data with
  | nil => intro σ; rfl
  | cons b rest ih =>
    intro σ
    rw [processJustFloat, List.foldl_cons, ← processJustFloat, ih, stepJustFloat_delivered]

/-- A JustFloat chunk never lowers the visible channel count. -/
theorem processJustFloat_cc_mono (data : List Nat) :
    ∀ σ, σ.channelCount ≤ (processJustFloat σ data).channelCount := by
  induction data with
  | nil => intro σ; exact le_refl _
  | cons b rest ih =>
    intro σ
    calc σ.channelCount ≤ (stepJustFloat σ b).channelCount := stepJustFloat_cc_mono σ b
      _ ≤ (processJustFloat (stepJustFloat σ b) rest).channelCount := ih _
      _ = (processJustFloat σ (b :: rest)).channelCount := rfl

/-- The FireWater line loop preserves parse-field agreement. -/
theorem processFireWaterLines_parseAgree :
    ∀ (n : Nat) (buf : List Char), buf.length ≤ n → ∀ σ σ', ParseAgree σ σ' →
      ParseAgree (processFireWaterLines σ buf) (processFireWaterLines σ' buf) := by
  intro n
  induction n with
  | zero =>
    intro buf hlen σ σ' h
    have hb : buf = [] := by
      cases buf with
      | nil => rfl
      | cons c cs => simp at hlen
    subst hb
    rw [processFireWaterLines, processFireWaterLines]
    obtain ⟨h1, h2, h3, h4, h5, h6, h7⟩ := h
    exact ⟨h1, h2, h3, h4, h5, rfl, h7⟩
  | succ n ih =>
    intro buf hlen σ σ' h
    rw [processFireWaterLines, processFireWaterLines]
    cases hfl : findLineEnd buf with
    | none =>
      simp only [hfl]
      obtain ⟨h1, h2, h3, h4, h5, h6, h7⟩ := h
      exact ⟨h1, h2, h3, h4, h5, rfl, h7⟩
    | some lineEnd =>
      simp only [hfl]
      have hpos := findLineEnd_isSome_pos hfl
      have hrest : (buf.drop (lineEnd + 1)).length ≤ n := by
        rw [List.length_drop]
        omega
      apply ih _ hrest
      by_cases hline : jsTrim (buf.take lineEnd) = []
      · simp only [if_pos hline]
        exact h
      · simp only [if_neg hline]
        cases hp : parseFireWaterLine (jsTrim (buf.take lineEnd)) with
        | none => exact h
        | some values =>
          by_cases hv : values.length > 0
          · simp only [if_pos hv]
            exact addFrameToBatch_parseAgree σ σ' _ h
          · simp only [if_neg hv]
            exact h

/-- The FireWater line loop never delivers. -/
theorem processFireWaterLines_delivered :
    ∀ (n : Nat) (buf : List Char), buf.length ≤ n → ∀ σ,
      (processFireWaterLines σ buf).delivered = σ.delivered := by
  intro n
  induction n with
  | zero =>
    intro buf hlen σ
    have hb : buf = [] := by
      cases buf with
      | nil => rfl
      | cons c cs => simp at hlen
    subst hb
    rw [processFireWaterLines]
    rfl
  | succ n ih =>
    intro buf hlen σ
    rw [processFireWaterLines]
    cases hfl : findLineEnd buf with
    | none => simp only [hfl]
    | some lineEnd =>
      simp only [hfl]
      have hpos := findLineEnd_isSome_pos hfl
      have hrest : (buf.drop (lineEnd + 1)).length ≤ n := by
        rw [List.length_drop]
        omega
      rw [ih _ hrest]
      by_cases hline : jsTrim (buf.take lineEnd) = []
      · simp only [if_pos hline]
      · simp only [if_neg hline]
        cases hp : parseFireWaterLine (jsTrim (buf.take lineEnd)) with
        | none => rfl
        | some values =>
          by_cases hv : values.length > 0
          · simp only [if_pos hv]
            rfl
          · simp only [if_neg hv]

/-- The FireWater line loop never lowers the visible channel count. -/
theorem processFireWaterLines_cc_mono :
    ∀ (n : Nat) (buf : List Char), buf.length ≤ n → ∀ σ,
      σ.channelCount ≤ (processFireWaterLines σ buf).channelCount := by
  intro n
  induction n with
  | zero =>
    intro buf hlen σ
    have hb : buf = [] := by
      cases buf with
      | nil => rfl
      | cons c cs => simp at hlen
    subst hb
    rw [processFireWaterLines]
    exact le_refl _
  | succ n ih =>
    intro buf hlen σ
    rw [processFireWaterLines]
    cases hfl : findLineEnd buf with
    | none => simp only [hfl]; exact le_refl _
    | some lineEnd =>
      simp only [hfl]
      have hpos := findLineEnd_isSome_pos hfl
      have hrest : (buf.drop (lineEnd + 1)).length ≤ n := by
        rw [List.length_drop]
        omega
      refine le_trans ?_ (ih _ hrest _)
      by_cases hline : jsTrim (buf.take lineEnd) = []
      · simp only [if_pos hline]
        exact le_refl _
      · simp only [if_neg hline]
        cases hp : parseFireWaterLine (jsTrim (buf.take lineEnd)) with
        | none => exact le_refl _
        | some values =>
          by_cases hv : values.length > 0
          · simp only [if_pos hv]
            simp only [addFrameToBatch, scheduleIdleFlush, ccUpdate_eq_max]
            omega
          · simp only [if_neg hv]
            exact le_refl _

/-- `processData` preserves parse-field agreement. -/
theorem processData_parseAgree (σ σ' : ParserState) (data : List Nat)
    (h : ParseAgree σ σ') : ParseAgree (processData σ data) (processData σ' data) := by
  rw [processData, processData, h.1]
  by_cases hp : σ'.currentProtocol = ProtocolType.justfloat
  · rw [if_pos hp, if_pos hp]
    exact processJustFloat_parseAgree data σ σ' h
  · rw [if_neg hp, if_neg hp]
    rw [processFireWater, processFireWater, h.2.2.2.2.2.1]
    exact processFireWaterLines_parseAgree _ _ (le_refl _) σ σ' h

/-- `processData` never delivers. -/
theorem processData_delivered (σ : ParserState) (data : List Nat) :
    (processData σ data).delivered = σ.delivered := by
  rw [processData]
  by_cases hp : σ.currentProtocol = ProtocolType.justfloat
  · rw [if_pos hp]
    exact processJustFloat_delivered data σ
  · rw [if_neg hp]
    rw [processFireWater]
    exact processFireWaterLines_delivered _ _ (le_refl _) σ

/-- `processData` never lowers the visible channel count. -/
theorem processData_cc_mono (σ : ParserState) (data : List Nat) :
    σ.channelCount ≤ (processData σ data).channelCount := by
  rw [processData]
  by_cases hp : σ.currentProtocol = ProtocolType.justfloat
  · rw [if_pos hp]
    exact processJustFloat_cc_mono data σ
  · rw [if_neg hp]
    rw [processFireWater]
    exact processFireWaterLines_cc_mono _ _ (le_refl _) σ

/-- Chunk sequences preserve parse-field agreement. -/
theorem runChunks_parseAgree (chunks : List (List Nat)) :
    ∀ σ σ', ParseAgree σ σ' →
      ParseAgree (runChunks σ chunks) (runChunks σ' chunks) := by
  induction chunks with
  | nil => intro σ σ' h; exact h
  | cons c rest ih =>
    intro σ σ' h
    exact ih _ _ (processData_parseAgree σ σ' c h)

/-- Chunk sequences never deliver. -/
theorem runChunks_delivered (chunks : List (List Nat)) :
    ∀ σ, (runChunks σ chunks).delivered = σ.delivered := by
  induction chunks with
  | nil => intro σ; rfl
  | cons c rest ih =>
    intro σ
    rw [runChunks, List.foldl_cons, ← runChunks, ih, processData_delivered]

/-- Chunk sequences never lower the visible channel count. -/
theorem runChunks_cc_mono (chunks : List (List Nat)) :
    ∀ σ, σ.channelCount ≤ (runChunks σ chunks).channelCount := by
  induction chunks with
  | nil => intro σ; exact le_refl _
  | cons c rest ih =>
    intro σ
    calc σ.channelCount ≤ (processData σ c).channelCount := processData_cc_mono σ c
      _ ≤ (runChunks (processData σ c) rest).channelCount := ih _
      _ = (runChunks σ (c :: rest)).channelCount := rfl

/-- C8.  `reset` clears all parsing state (scratch buffers, marker-search
state, learned expected channel count, pending unflushed batch, idle-flush
timer) while preserving the visible channel count and frame counter;
`fullReset` additionally zeroes both counters.  After either call, feeding
any further chunks delivers nothing pre-existing and produces exactly the
frames a fresh decoder (same protocol) would produce from that input alone
— no frame derived from pre-reset partial input is ever delivered. -/
theorem spec_C8_reset_clears_parsing_state (σ : ParserState) :
    reset σ = { initParserState with
      channelCount := σ.channelCount, frameCount := σ.frameCount,
      currentProtocol := σ.currentProtocol, delivered := σ.delivered } ∧
    fullReset σ = { initParserState with
      currentProtocol := σ.currentProtocol, delivered := σ.delivered } ∧
    (∀ chunks : List (List Nat),
      (runChunks (reset σ) chunks).framesBatch =
        (runChunks { initParserState with currentProtocol := σ.currentProtocol }
          chunks).framesBatch ∧
      (runChunks (reset σ) chunks).delivered = σ.delivered ∧
      (runChunks (fullReset σ) chunks).framesBatch =
        (runChunks { initParserState with currentProtocol := σ.currentProtocol }
          chunks).framesBatch ∧
      (runChunks (fullReset σ) chunks).delivered = σ.delivered) := by
  have hagree : ParseAgree (reset σ)
      { initParserState with currentProtocol := σ.currentProtocol } :=
    ⟨rfl, rfl, rfl, rfl, rfl, rfl, rfl⟩
  have hagree2 : ParseAgree (fullReset σ)
      { initParserState with currentProtocol := σ.currentProtocol } :=
    ⟨rfl, rfl, rfl, rfl, rfl, rfl, rfl⟩
  refine ⟨rfl, rfl, fun chunks => ⟨?_, ?_, ?_, ?_⟩⟩
  · exact (runChunks_parseAgree chunks _ _ hagree).2.2.2.2.2.2
  · rw [runChunks_delivered]
    rfl
  · exact (runChunks_parseAgree chunks _ _ hagree2).2.2.2.2.2.2
  · rw [runChunks_delivered]
    rfl

/-- C9.  Frame emission never lowers the visible channel count: after
`addFrameToBatch` it equals the maximum of its previous value and the
emitted frame's value count, and it is monotonically non-decreasing across
any sequence of `processData` calls. -/
theorem spec_C9_channel_count_monotone :
    (∀ (σ : ParserState) (values : List JSNum),
      (addFrameToBatch σ values).channelCount =
        max σ.channelCount values.length) ∧
    (∀ (σ : ParserState) (chunks : List (List Nat)),
      σ.channelCount ≤ (runChunks σ chunks).channelCount) := by
  constructor
  · intro σ values
    simp only [addFrameToBatch, scheduleIdleFlush, ccUpdate_eq_max]
  · intro σ chunks
    exact runChunks_cc_mono chunks σ

/-! ## FireWater line parsing -/

/-- A non-empty-after-trim piece that does not parse finite fails the whole
line. -/
theorem parsePieces_fail (pieces : List (List Char))
    (h : ∃ p ∈ pieces, jsTrim p ≠ [] ∧ jsParseFloat (jsTrim p) = none) :
    parsePieces pieces = none := by
  induction pieces with
  | nil => simp at h
  | cons p ps ih =>
    obtain ⟨x, hx, hxt, hxp⟩ := h
    rw [parsePieces]
    by_cases ht : jsTrim p = []
    · rw [if_pos ht]
      rcases List.mem_cons.mp hx with rfl | hxs
      · exact absurd ht hxt
      · exact ih ⟨x, hxs, hxt, hxp⟩
    · rw [if_neg ht]
      cases hp : jsParseFloat (jsTrim p) with
      | none => rfl
      | some v =>
        rcases List.mem_cons.mp hx with rfl | hxs
        · rw [hp] at hxp
          exact absurd hxp (by simp)
        · rw [ih ⟨x, hxs, hxt, hxp⟩]
          rfl

/-- When every non-empty piece parses finite, the line parses to exactly
the values of the non-empty pieces, in order. -/
theorem parsePieces_ok (pieces : List (List Char))
    (h : ∀ p ∈ pieces, jsTrim p ≠ [] → (jsParseFloat (jsTrim p)).isSome = true) :
    parsePieces pieces =
      some (pieces.filterMap
        (fun p => if jsTrim p = [] then none else jsParseFloat (jsTrim p))) := by
  induction pieces with
  | nil => rfl
  | cons p ps ih =>
    rw [parsePieces, List.filterMap_cons]
    by_cases ht : jsTrim p = []
    · rw [if_pos ht, if_pos ht]
      exact ih (fun q hq => h q (by simp [hq]))
    · rw [if_neg ht, if_neg ht]
      obtain ⟨v, hv⟩ := Option.isSome_iff_exists.mp (h p (by simp) ht)
      rw [hv, ih (fun q hq => h q (by simp [hq]))]
      rfl

/-- The parsed values are one per non-empty-after-trim piece. -/
theorem parsePieces_ok_length (pieces : List (List Char))
    (h : ∀ p ∈ pieces, jsTrim p ≠ [] → (jsParseFloat (jsTrim p)).isSome = true) :
    (pieces.filterMap
        (fun p => if jsTrim p = [] then none else jsParseFloat (jsTrim p))).length =
      pieces.countP (fun p => !(jsTrim p == [])) := by
  induction pieces with
  | nil => rfl
  | cons p ps ih =>
    rw [List.filterMap_cons, List.countP_cons]
    by_cases ht : jsTrim p = []
    · rw [if_pos ht, ih (fun q hq => h q (by simp [hq]))]
      simp [ht]
    · obtain ⟨v, hv⟩ := Option.isSome_iff_exists.mp (h p (by simp) ht)
      rw [if_neg ht, hv]
      simp only [List.length_cons]
      rw [ih (fun q hq => h q (by simp [hq]))]
      simp [ht]

/-- `indexOf(':')` on a line whose prefix is colon-free finds the first
colon, at the prefix's length. -/
theorem findIdxColon (pre rest : List Char) (h : ':' ∉ pre) :
    (pre ++ ':' :: rest).findIdx? (· = ':') = some pre.length := by
  induction pre with
  | nil => simp [List.findIdx?_cons]
  | cons c cs ih =>
    have hc : ¬ (c = ':') := fun hcc => h (by simp [hcc])
    have hcs : ':' ∉ cs := fun hm => h (List.mem_cons_of_mem _ hm)
    simp only [List.cons_append, List.findIdx?_cons]
    simp [hc, ih hcs]

/-- On a line `pre ++ ":" ++ rest` with no colon in `pre`, the data part is
exactly `rest` (the substring after the first colon). -/
theorem dataPartOfLine_colon (pre rest : List Char) (h : ':' ∉ pre) :
    dataPartOfLine (pre ++ ':' :: rest) = rest := by
  unfold dataPartOfLine
  rw [findIdxColon pre rest h]
  show List.drop (pre.length + 1) (pre ++ ':' :: rest) = rest
  rw [show pre ++ ':' :: rest = (pre ++ [':']) ++ rest from by simp]
  rw [show pre.length + 1 = (pre ++ [':']).length from by simp]
  exact List.drop_left _ _

/-- C3 (amended): in the FireWater text parser, (1) a line with a comma
piece that is non-empty after trimming and does not parse as a finite
number yields no frame (no partial frames); (2) a non-`image` line whose
non-empty pieces all parse finite yields the list of exactly those parsed
values when at least one value results (`null` otherwise), and the channel
count equals the number of non-empty-after-trim pieces — empty pieces are
skipped, not failures; (3) only the substring after the first colon is
parsed as data; (4) a line starting with `image` (case-insensitive) yields
no frame; (5) concretely, `"tag:1,2,abc"` yields no frame and `"1,2,3"`
yields the 3-channel frame `[1, 2, 3]`. -/
theorem spec_C3_firewater_line :
    (∀ line : List Char,
      (∃ p ∈ splitOnComma (dataPartOfLine line),
          jsTrim p ≠ [] ∧ jsParseFloat (jsTrim p) = none) →
      parseFireWaterLine line = none)
    ∧ (∀ line : List Char, isImageLine line = false →
        (∀ p ∈ splitOnComma (dataPartOfLine line),
            jsTrim p ≠ [] → (jsParseFloat (jsTrim p)).isSome = true) →
        (parseFireWaterLine line =
          (if ((splitOnComma (dataPartOfLine line)).filterMap
              (fun p => if jsTrim p = [] then none else jsParseFloat (jsTrim p))).length > 0
           then some ((splitOnComma (dataPartOfLine line)).filterMap
              (fun p => if jsTrim p = [] then none else jsParseFloat (jsTrim p)))
           else none))
        ∧ ((splitOnComma (dataPartOfLine line)).filterMap
              (fun p => if jsTrim p = [] then none else jsParseFloat (jsTrim p))).length
            = (splitOnComma (dataPartOfLine line)).countP (fun p => !(jsTrim p == [])))
    ∧ (∀ pre rest : List Char, ':' ∉ pre →
        dataPartOfLine (pre ++ ':' :: rest) = rest)
    ∧ (∀ line : List Char, isImageLine line = true → parseFireWaterLine line = none)
    ∧ parseFireWaterLine (("tag:1,2,abc").data) = none
    ∧ parseFireWaterLine (("1,2,3").data) = some [1, 2, 3] := by
  refine ⟨?_, ?_, ?_, ?_, ?_, ?_⟩
  · intro line h
    simp only [parseFireWaterLine]
    by_cases hi : isImageLine line = true
    · rw [if_pos hi]
    · rw [if_neg hi, parsePieces_fail _ h]
  · intro line hi h
    refine ⟨?_, parsePieces_ok_length _ h⟩
    simp only [parseFireWaterLine]
    rw [if_neg (by simp [hi]), parsePieces_ok _ h]
  · exact fun pre rest h => dataPartOfLine_colon pre rest h
  · intro line hi
    simp only [parseFireWaterLine]
    rw [if_pos hi]
  · decide
  · simp +decide [parseFireWaterLine, parsePieces, splitOnComma, dataPartOfLine,
      isImageLine, jsTrim, jsParseFloat, digitsToNat]

/-- The line `"1,,2"` refutes the original C3: its middle comma piece is
empty, `parseFloat("")` is `NaN` (fails to parse as a finite number), yet
the line is not discarded — it yields the 2-channel frame `[1, 2]`, and
that channel count 2 differs from the 3 comma-separated values. -/
theorem spec_C3_empty_piece_counterexample :
    jsParseFloat (jsTrim []) = none
    ∧ splitOnComma (("1,,2").data) = [['1'], [], ['2']]
    ∧ (splitOnComma (("1,,2").data)).length = 3
    ∧ parseFireWaterLine (("1,,2").data) = some [1, 2] := by
  refine ⟨by decide, by decide, by decide, ?_⟩
  simp +decide [parseFireWaterLine, parsePieces, splitOnComma, dataPartOfLine,
    isImageLine, jsTrim, jsParseFloat, digitsToNat]

/-! ## JustFloat marker geometry -/

/-- `getD` through `drop`. -/
theorem getD_drop_add (l : List Nat) (s i : Nat) :
    (l.drop s).getD i 0 = l.getD (s + i) 0 := by
  simp [List.getD_eq_getElem?_getD, List.getElem?_drop]

/-- A buffer shorter than the marker never passes `checkSyncBytes`. -/
theorem checkSyncBytes_short (l : List Nat) (h : l.length < 4) :
    checkSyncBytes l = false := by
  unfold checkSyncBytes
  rw [if_pos h]

/-- A four-byte list is the marker iff its bytes read `0, 0, 128, 127`. -/
theorem eq_sync_iff_getD : ∀ (d : List Nat), d.length = 4 →
    (d = SYNC_BYTES ↔
      d.getD 0 0 = 0 ∧ d.getD 1 0 = 0 ∧ d.getD 2 0 = 128 ∧ d.getD 3 0 = 127)
  | [], h => by simp at h
  | [_], h => by simp at h
  | [_, _], h => by simp at h
  | [_, _, _], h => by simp at h
  | _ :: _ :: _ :: _ :: _ :: _ :: _, h => by simp at h
  | [x0, x1, x2, x3], _ => by
    constructor
    · intro he
      rw [he]
      exact ⟨rfl, rfl, rfl, rfl⟩
    · rintro ⟨h0, h1, h2, h3⟩
      have e0 : x0 = 0 := h0
      have e1 : x1 = 0 := h1
      have e2 : x2 = 128 := h2
      have e3 : x3 = 127 := h3
      rw [e0, e1, e2, e3]
      rfl

/-- `checkSyncBytes` holds exactly when the last four bytes are the marker. -/
theorem checkSyncBytes_true_iff (l : List Nat) (h : 4 ≤ l.length) :
    (checkSyncBytes l = true ↔ l.drop (l.length - 4) = SYNC_BYTES) := by
  have hlen : (l.drop (l.length - 4)).length = 4 := by
    rw [List.length_drop]; omega
  unfold checkSyncBytes
  rw [if_neg (by omega)]
  rw [eq_sync_iff_getD _ hlen]
  rw [getD_drop_add, getD_drop_add, getD_drop_add, getD_drop_add]
  simp only [Nat.add_zero]
  constructor
  · intro hb
    simp only [Bool.and_eq_true, beq_iff_eq] at hb
    exact ⟨hb.1.1.1, hb.1.1.2, hb.1.2, hb.2⟩
  · rintro ⟨h0, h1, h2, h3⟩
    simp only [Bool.and_eq_true, beq_iff_eq]
    exact ⟨⟨⟨h0, h1⟩, h2⟩, h3⟩

/-- `checkSyncBytes` fails whenever the last-four-bytes window is not the
marker. -/
theorem checkSyncBytes_false (l : List Nat)
    (h : l.drop (l.length - 4) ≠ SYNC_BYTES) : checkSyncBytes l = false := by
  by_cases h4 : 4 ≤ l.length
  · cases hb : checkSyncBytes l
    · rfl
    · exact absurd ((checkSyncBytes_true_iff l h4).mp hb) h
  · exact checkSyncBytes_short l (by omega)

/-- `checkSyncBytes` succeeds when the last four bytes are the marker. -/
theorem checkSyncBytes_true (l : List Nat) (h4 : 4 ≤ l.length)
    (h : l.drop (l.length - 4) = SYNC_BYTES) : checkSyncBytes l = true :=
  (checkSyncBytes_true_iff l h4).mpr h

/-- The last-four-bytes window ignores everything before the last four
bytes. -/
theorem drop_last_append (A X : List Nat) (h : 4 ≤ X.length) :
    (A ++ X).drop ((A ++ X).length - 4) = X.drop (X.length - 4) := by
  rw [List.length_append]
  rw [show A.length + X.length - 4 = A.length + (X.length - 4) from by omega]
  exact List.drop_append _

/-- A marker occurrence pins down the four stream bytes at its offset. -/
theorem occursAt_getElem (s : List Nat) (k : Nat) (h : occursAt s k)
    (i : Nat) (hi : i < 4) : s[k + i]? = SYNC_BYTES[i]? := by
  unfold occursAt at h
  have hcongr := congrArg (fun t : List Nat => t[i]?) h
  simpa [List.getElem?_take, hi, List.getElem?_drop] using hcongr

/-- Unpacking `markerFree`: no occurrence of the marker at any offset. -/
theorem markerFree_spec (p : List Nat) (h : markerFree p = true) (k : Nat)
    (hk : k < p.length) : ¬ occursAt p k := by
  unfold markerFree at h
  rw [List.all_eq_true] at h
  have hvk := h k (List.mem_range.mpr hk)
  simpa using hvk

/-- Master window lemma: in a marker-bracketed marker-free payload
`SYNC ++ p ++ SYNC`, the marker occurs at no offset strictly between the
two bracketing markers (offsets `1 … |p|+3`).  Offsets `1..3` and
`|p|+1..|p|+3` would misalign a `0x7F` byte; offsets `4..|p|` are inside
the marker-free payload. -/
theorem no_midstream_marker (p : List Nat) (hp : markerFree p = true)
    (n : Nat) (h1 : 1 ≤ n) (h2 : n ≤ p.length + 3) :
    ¬ occursAt (SYNC_BYTES ++ p ++ SYNC_BYTES) n := by
  intro hocc
  by_cases hA : n ≤ 3
  · have h3 := occursAt_getElem _ _ hocc (3 - n) (by omega)
    rw [show n + (3 - n) = 3 from by omega] at h3
    have hleft : (SYNC_BYTES ++ p ++ SYNC_BYTES)[3]? = some 127 := by
      rw [List.append_assoc, List.getElem?_append_left (by simp [SYNC_BYTES])]
      rfl
    rw [hleft] at h3
    interval_cases n <;> simp [SYNC_BYTES] at h3
  · by_cases hB : n ≤ p.length
    · refine markerFree_spec p hp (n - 4) (by omega) ?_
      unfold occursAt at hocc ⊢
      rw [List.append_assoc] at hocc
      rw [show n = SYNC_BYTES.length + (n - 4) from by
        simp only [SYNC_BYTES, List.length_cons, List.length_nil]; omega] at hocc
      rw [List.drop_append] at hocc
      rw [List.drop_append_of_le_length (by omega)] at hocc
      rw [List.take_append_of_le_length (by rw [List.length_drop]; omega)] at hocc
      exact hocc
    · have h3 := occursAt_getElem _ _ hocc 3 (by omega)
      obtain ⟨j, hj, rfl⟩ : ∃ j, j ≤ 2 ∧ n = p.length + 1 + j :=
        ⟨n - p.length - 1, by omega, by omega⟩
      have hr : (SYNC_BYTES ++ p ++ SYNC_BYTES)[p.length + 1 + j + 3]?
          = SYNC_BYTES[j]? := by
        rw [List.getElem?_append_right
          (by simp only [List.length_append, SYNC_BYTES, List.length_cons,
                List.length_nil]; omega)]
        congr 1
        simp only [List.length_append, SYNC_BYTES, List.length_cons,
          List.length_nil]
        omega
      rw [hr] at h3
      interval_cases j <;> simp [SYNC_BYTES] at h3

/-! ## Decoding and slicing helpers for the JustFloat proofs -/

/-- `parseFloats` on a `4·C`-byte payload yields exactly `C` values. -/
theorem parseFloats_length_four (C : Nat) : ∀ (p : List Nat), p.length = 4 * C →
    (parseFloats p).length = C := by
  induction C with
  | zero =>
    intro p hp
    have hnil : p = [] := List.eq_nil_of_length_eq_zero (by omega)
    subst hnil
    rfl
  | succ C ih =>
    intro p hp
    rcases p with _ | ⟨b0, _ | ⟨b1, _ | ⟨b2, _ | ⟨b3, rest⟩⟩⟩⟩
    · simp only [List.length_nil] at hp; omega
    · simp only [List.length_cons, List.length_nil] at hp; omega
    · simp only [List.length_cons, List.length_nil] at hp; omega
    · simp only [List.length_cons, List.length_nil] at hp; omega
    · have hr : rest.length = 4 * C := by
        simp only [List.length_cons] at hp; omega
      show (f32ValueOfWord (leWord b0 b1 b2 b3) :: parseFloats rest).length = C + 1
      rw [List.length_cons, ih rest hr]

/-- `encodeWords` unfolds one word at a time. -/
theorem encodeWords_cons (w : Nat) (ws : List Nat) :
    encodeWords (w :: ws) = wordLEBytes w ++ encodeWords ws := by
  simp [encodeWords]

/-- Wire length of an encoded word list. -/
theorem encodeWords_length (ws : List Nat) :
    (encodeWords ws).length = 4 * ws.length := by
  induction ws with
  | nil => rfl
  | cons w ws ih =>
    rw [encodeWords_cons, List.length_append, ih]
    simp only [wordLEBytes, List.length_cons, List.length_nil]
    omega

/-- Every byte produced by `encodeWords` is a byte. -/
theorem encodeWords_bytes (ws : List Nat) : ∀ b ∈ encodeWords ws, b < 256 := by
  induction ws with
  | nil => intro b hb; simp [encodeWords] at hb
  | cons w ws ih =>
    intro b hb
    rw [encodeWords_cons, List.mem_append] at hb
    rcases hb with hb | hb
    · simp only [wordLEBytes, List.mem_cons, List.not_mem_nil, or_false] at hb
      rcases hb with rfl | rfl | rfl | rfl <;> omega
    · exact ih b hb

/-- Decoding inverts encoding: the emitted values of an encoded frame are
the float32 readings of the original words. -/
theorem parseFloats_encodeWords (ws : List Nat) (hw : ∀ w ∈ ws, w < 2 ^ 32) :
    parseFloats (encodeWords ws) = ws.map f32ValueOfWord := by
  induction ws with
  | nil => rfl
  | cons w ws ih =>
    rw [encodeWords_cons]
    have hw32 : w < 2 ^ 32 := hw w (by simp)
    have hlw : leWord (w % 256) (w / 256 % 256) (w / 65536 % 256)
        (w / 16777216 % 256) = w := by
      unfold leWord
      omega
    show f32ValueOfWord (leWord (w % 256) (w / 256 % 256) (w / 65536 % 256)
        (w / 16777216 % 256)) :: parseFloats (encodeWords ws) = _
    rw [hlw, ih (fun x hx => hw x (by simp [hx])), List.map_cons]

/-- A stable channel count absorbs repeated updates with the same frame
width. -/
theorem ccUpdate_stable (cc C : Nat) : ccUpdate (ccUpdate cc C) C = ccUpdate cc C := by
  simp only [ccUpdate_eq_max]
  omega

/-- `slice` index clamping is the identity on in-range nonnegative
indices. -/
theorem jsSliceIdx_natCast (len s : Nat) (h : s ≤ len) :
    jsSliceIdx len (s : Int) = s := by
  unfold jsSliceIdx
  rw [if_neg (by omega)]
  rw [min_eq_left (by exact_mod_cast h)]
  exact Int.toNat_natCast s

/-- `slice(s, e)` with in-range natural indices. -/
theorem jsSlice_natCast (l : List α) (s e : Nat) (hs : s ≤ l.length)
    (he : e ≤ l.length) : jsSlice l (s : Int) (e : Int) = (l.take e).drop s := by
  unfold jsSlice
  rw [jsSliceIdx_natCast _ _ he, jsSliceIdx_natCast _ _ hs]

/-- `slice(s)` with an in-range natural index is `drop`. -/
theorem jsSliceFrom_natCast (l : List α) (s : Nat) (hs : s ≤ l.length) :
    jsSliceFrom l (s : Int) = l.drop s := by
  unfold jsSliceFrom
  rw [jsSlice_natCast l s l.length hs le_rfl, List.take_length]

/-- Slicing out the middle third of a concatenation. -/
theorem jsSlice_middle (A p B : List Nat) :
    jsSlice (A ++ p ++ B) (A.length : Int) ((A.length + p.length : Nat) : Int)
      = p := by
  have h1 : A.length ≤ (A ++ p ++ B).length := by
    simp only [List.length_append]; omega
  have h2 : A.length + p.length ≤ (A ++ p ++ B).length := by
    simp only [List.length_append]; omega
  rw [jsSlice_natCast _ _ _ h1 h2, List.append_assoc, List.take_append,
    List.take_left, List.drop_left]

/-- One scanner byte that completes no marker and does not overflow the
buffer only grows the buffer. -/
theorem stepJustFloat_noFire (σ : ParserState) (b : Nat)
    (hsz : σ.justfloatBuffer.length + 1 ≤ 100000)
    (hchk : checkSyncBytes (σ.justfloatBuffer ++ [b]) = false) :
    stepJustFloat σ b = { σ with justfloatBuffer := σ.justfloatBuffer ++ [b] } := by
  rcases σ with ⟨cc, fc, p, buf, st, fsi, exp, fw, batch, t, d⟩
  simp only at hsz hchk
  cases st <;>
    (dsimp only [stepJustFloat]
     rw [if_neg (by
       simp only [List.length_append, List.length_cons, List.length_nil]
       omega)]
     rw [hchk]
     rfl)

/-- A scanner byte never changes the active protocol. -/
theorem stepJustFloat_protocol (σ : ParserState) (b : Nat) :
    (stepJustFloat σ b).currentProtocol = σ.currentProtocol := by
  rcases σ with ⟨cc, fc, p, buf, st, fsi, exp, fw, batch, t, d⟩
  cases st <;>
    (dsimp only [stepJustFloat]
     split_ifs <;> rfl)

/-- A JustFloat chunk never changes the active protocol. -/
theorem processJustFloat_protocol (data : List Nat) :
    ∀ σ, (processJustFloat σ data).currentProtocol = σ.currentProtocol := by
  induction data with
  | nil => intro σ; rfl
  | cons b rest ih =>
    intro σ
    rw [processJustFloat, List.foldl_cons, ← processJustFloat, ih,
      stepJustFloat_protocol]

/-- Chunk concatenation for the byte scanner. -/
theorem processJustFloat_append (σ : ParserState) (x y : List Nat) :
    processJustFloat σ (x ++ y) = processJustFloat (processJustFloat σ x) y :=
  List.foldl_append _ _ _ _

/-- A fire-free byte run (no intermediate tail window is the marker, no
overflow) only grows the buffer. -/
theorem processJustFloat_noFire : ∀ (r : List Nat) (σ : ParserState),
    σ.justfloatBuffer.length + r.length ≤ 100000 →
    (∀ m, 1 ≤ m → m ≤ r.length →
      checkSyncBytes (σ.justfloatBuffer ++ r.take m) = false) →
    processJustFloat σ r = { σ with justfloatBuffer := σ.justfloatBuffer ++ r }
  | [], σ, _, _ => by
    show σ = _
    simp
  | b :: r, σ, hsz, hchk => by
    show processJustFloat (stepJustFloat σ b) r = _
    have hstep : stepJustFloat σ b = { σ with justfloatBuffer := σ.justfloatBuffer ++ [b] } := by
      refine stepJustFloat_noFire σ b (by simp only [List.length_cons] at hsz; omega) ?_
      have h1 := hchk 1 le_rfl (by simp only [List.length_cons]; omega)
      simpa using h1
    rw [hstep]
    rw [processJustFloat_noFire r _ (by
        simp only [List.length_append, List.length_cons, List.length_nil]
        simp only [List.length_cons] at hsz
        omega)
      (by
        intro m hm1 hm2
        have := hchk (m + 1) (by omega) (by simp only [List.length_cons]; omega)
        simp only [List.take_succ_cons] at this
        simpa [List.append_assoc] using this)]
    simp [List.append_assoc]

/-- The length/bound check passes exactly on aligned 1–64-channel
candidates. -/
theorem isValidPayload_of (s e : Int) (C : Nat) (h : e - s = 4 * (C : Int))
    (h1 : 1 ≤ C) (h64 : C ≤ 64) : isValidPayload s e = true := by
  have hC1 : (1 : Int) ≤ (C : Int) := by exact_mod_cast h1
  have hC64 : (C : Int) ≤ 64 := by exact_mod_cast h64
  unfold isValidPayload
  rw [h]
  dsimp only
  split_ifs with hc1 hc2 hc3 hc4
  · exfalso
    simp only [bne_iff_ne, ne_eq] at hc1
    exact hc1 (Int.mul_emod_right 4 C)
  · exfalso
    simp only [beq_iff_eq] at hc2
    omega
  · exfalso; omega
  · exfalso; omega
  · rfl

/-- The closing marker byte of a well-sized matching frame: the payload is
sliced out, decoded and batched, and the buffer re-anchors on the consumed
second marker. -/
theorem stepJustFloat_emit (B' p : List Nat) (C : Nat) (σ : ParserState)
    (hbuf : σ.justfloatBuffer = B' ++ SYNC_BYTES ++ p ++ [0, 0, 128])
    (hstate : σ.justfloatState = .lookingForSecondSync)
    (hfsi : σ.firstSyncIndex = (B'.length : Int))
    (hexp : σ.expectedChannelCount = 0 ∨ σ.expectedChannelCount = C)
    (hC1 : 1 ≤ C) (hC64 : C ≤ 64) (hplen : p.length = 4 * C)
    (hsz : B'.length + p.length + 8 ≤ 100000) :
    stepJustFloat σ 127 =
      { σ with justfloatBuffer := SYNC_BYTES,
               firstSyncIndex := 0,
               expectedChannelCount := C,
               framesBatch := σ.framesBatch ++ [parseFloats p],
               frameCount := σ.frameCount + 1,
               channelCount := ccUpdate σ.channelCount C,
               idleFlushTimer := true } := by
  rcases σ with ⟨cc, fc, prot, buf, st, fsi, exp, fw, batch, t, d⟩
  simp only at hbuf hstate hfsi hexp
  subst hbuf hstate hfsi
  have hbuf2 : (B' ++ SYNC_BYTES ++ p ++ [0, 0, 128]) ++ [127]
      = (B' ++ SYNC_BYTES) ++ p ++ SYNC_BYTES := by
    simp [SYNC_BYTES, List.append_assoc]
  have hlen2 : ((B' ++ SYNC_BYTES) ++ p ++ SYNC_BYTES).length
      = B'.length + p.length + 8 := by
    simp only [List.length_append, SYNC_BYTES, List.length_cons, List.length_nil]
    omega
  have hchk : checkSyncBytes ((B' ++ SYNC_BYTES) ++ p ++ SYNC_BYTES) = true := by
    refine checkSyncBytes_true _ (by rw [hlen2]; omega) ?_
    rw [drop_last_append ((B' ++ SYNC_BYTES) ++ p) SYNC_BYTES (by simp [SYNC_BYTES])]
    rfl
  have hA : ((B' ++ SYNC_BYTES).length : Int) = (B'.length : Int) + 4 := by
    simp only [List.length_append, SYNC_BYTES, List.length_cons, List.length_nil]
    push_cast
    ring
  have hE : (((B' ++ SYNC_BYTES) ++ p ++ SYNC_BYTES).length : Int) - 4
      = (((B' ++ SYNC_BYTES).length + p.length : Nat) : Int) := by
    rw [hlen2]
    simp only [List.length_append, SYNC_BYTES, List.length_cons, List.length_nil]
    push_cast
    ring
  have hvalid : isValidPayload ((B'.length : Int) + 4)
      ((((B' ++ SYNC_BYTES) ++ p ++ SYNC_BYTES).length : Int) - 4) = true := by
    refine isValidPayload_of _ _ C ?_ hC1 hC64
    rw [hlen2]
    push_cast
    rw [hplen]
    push_cast
    ring
  have hslice : jsSlice ((B' ++ SYNC_BYTES) ++ p ++ SYNC_BYTES)
      ((B'.length : Int) + 4)
      ((((B' ++ SYNC_BYTES) ++ p ++ SYNC_BYTES).length : Int) - 4) = p := by
    rw [hE, ← hA]
    exact jsSlice_middle (B' ++ SYNC_BYTES) p SYNC_BYTES
  have hvl : (parseFloats p).length = C := parseFloats_length_four C p hplen
  have hdropSync : ((B' ++ SYNC_BYTES) ++ p ++ SYNC_BYTES).drop
      (B'.length + p.length + 4) = SYNC_BYTES := by
    rw [show B'.length + p.length + 4 = ((B' ++ SYNC_BYTES) ++ p).length from by
      simp only [List.length_append, SYNC_BYTES, List.length_cons, List.length_nil]
      omega]
    exact List.drop_left _ _
  have hsliceFrom : jsSliceFrom ((B' ++ SYNC_BYTES) ++ p ++ SYNC_BYTES)
      ((((B' ++ SYNC_BYTES) ++ p ++ SYNC_BYTES).length : Int) - 4) = SYNC_BYTES := by
    rw [show ((((B' ++ SYNC_BYTES) ++ p ++ SYNC_BYTES).length : Int) - 4)
        = ((B'.length + p.length + 4 : Nat) : Int) from by
      rw [hlen2]; push_cast; ring]
    rw [jsSliceFrom_natCast _ _ (by rw [hlen2]; omega)]
    exact hdropSync
  dsimp only [stepJustFloat]
  rw [hbuf2]
  rw [if_neg (by rw [hlen2]; omega)]
  dsimp only
  rw [if_pos hchk]
  rw [if_pos hvalid]
  rw [hslice, hvl]
  rcases hexp with hexp | hexp
  · subst hexp
    rw [if_neg (by simp)]
    rw [if_pos (by omega : C > 0)]
    rw [if_pos rfl]
    simp only [addFrameToBatch, scheduleIdleFlush, hvl, hsliceFrom]
  · rw [hexp]
    rw [if_neg (by
      intro hcon
      exact hcon.2 rfl)]
    rw [if_pos (by omega : C > 0)]
    rw [ite_self]
    simp only [addFrameToBatch, scheduleIdleFlush, hvl, hsliceFrom]

/-- The closing marker byte of an aligned candidate whose channel count
mismatches the established one: the candidate is dropped, the scanner
returns to first-marker search, and the buffer is only appended to (not
truncated); no frame is batched. -/
theorem stepJustFloat_mismatch (B' p : List Nat) (ka : Nat) (σ : ParserState)
    (hbuf : σ.justfloatBuffer = B' ++ SYNC_BYTES ++ p ++ [0, 0, 128])
    (hstate : σ.justfloatState = .lookingForSecondSync)
    (hfsi : σ.firstSyncIndex = (B'.length : Int))
    (hka1 : 1 ≤ ka) (hka64 : ka ≤ 64) (hplen : p.length = 4 * ka)
    (hexp : 0 < σ.expectedChannelCount) (hne : ka ≠ σ.expectedChannelCount)
    (hsz : B'.length + p.length + 8 ≤ 100000) :
    stepJustFloat σ 127 =
      { σ with justfloatBuffer := σ.justfloatBuffer ++ [127],
               justfloatState := .lookingForFirstSync,
               firstSyncIndex := -1 } := by
  rcases σ with ⟨cc, fc, prot, buf, st, fsi, exp, fw, batch, t, d⟩
  simp only at hbuf hstate hfsi hexp hne
  subst hbuf hstate hfsi
  have hbuf2 : (B' ++ SYNC_BYTES ++ p ++ [0, 0, 128]) ++ [127]
      = (B' ++ SYNC_BYTES) ++ p ++ SYNC_BYTES := by
    simp [SYNC_BYTES, List.append_assoc]
  have hlen2 : ((B' ++ SYNC_BYTES) ++ p ++ SYNC_BYTES).length
      = B'.length + p.length + 8 := by
    simp only [List.length_append, SYNC_BYTES, List.length_cons, List.length_nil]
    omega
  have hchk : checkSyncBytes ((B' ++ SYNC_BYTES) ++ p ++ SYNC_BYTES) = true := by
    refine checkSyncBytes_true _ (by rw [hlen2]; omega) ?_
    rw [drop_last_append ((B' ++ SYNC_BYTES) ++ p) SYNC_BYTES (by simp [SYNC_BYTES])]
    rfl
  have hA : ((B' ++ SYNC_BYTES).length : Int) = (B'.length : Int) + 4 := by
    simp only [List.length_append, SYNC_BYTES, List.length_cons, List.length_nil]
    push_cast
    ring
  have hE : (((B' ++ SYNC_BYTES) ++ p ++ SYNC_BYTES).length : Int) - 4
      = (((B' ++ SYNC_BYTES).length + p.length : Nat) : Int) := by
    rw [hlen2]
    simp only [List.length_append, SYNC_BYTES, List.length_cons, List.length_nil]
    push_cast
    ring
  have hvalid : isValidPayload ((B'.length : Int) + 4)
      ((((B' ++ SYNC_BYTES) ++ p ++ SYNC_BYTES).length : Int) - 4) = true := by
    refine isValidPayload_of _ _ ka ?_ hka1 hka64
    rw [hlen2]
    push_cast
    rw [hplen]
    push_cast
    ring
  have hslice : jsSlice ((B' ++ SYNC_BYTES) ++ p ++ SYNC_BYTES)
      ((B'.length : Int) + 4)
      ((((B' ++ SYNC_BYTES) ++ p ++ SYNC_BYTES).length : Int) - 4) = p := by
    rw [hE, ← hA]
    exact jsSlice_middle (B' ++ SYNC_BYTES) p SYNC_BYTES
  have hvl : (parseFloats p).length = ka := parseFloats_length_four ka p hplen
  dsimp only [stepJustFloat]
  rw [hbuf2]
  rw [if_neg (by rw [hlen2]; omega)]
  dsimp only
  rw [if_pos hchk]
  rw [if_pos hvalid]
  rw [hslice, hvl]
  rw [if_pos ⟨hexp, hne⟩]

/-- A byte completing a marker while searching for the first marker records
the marker position and switches to second-marker search. -/
theorem stepJustFloat_firstFire (σ : ParserState) (b : Nat)
    (hstate : σ.justfloatState = .lookingForFirstSync)
    (hsz : σ.justfloatBuffer.length + 1 ≤ 100000)
    (hchk : checkSyncBytes (σ.justfloatBuffer ++ [b]) = true) :
    stepJustFloat σ b =
      { σ with justfloatBuffer := σ.justfloatBuffer ++ [b],
               firstSyncIndex := ((σ.justfloatBuffer ++ [b]).length : Int) - 4,
               justfloatState := .lookingForSecondSync } := by
  rcases σ with ⟨cc, fc, prot, buf, st, fsi, exp, fw, batch, t, d⟩
  simp only at hstate hsz hchk
  subst hstate
  dsimp only [stepJustFloat]
  rw [if_neg (by
    simp only [List.length_append, List.length_cons, List.length_nil]
    omega)]
  dsimp only
  rw [if_pos hchk]

/-- Scanning through a marker-free payload between two markers, no
intermediate tail window looks like the marker. -/
theorem noFire_bracket (B' p : List Nat) (hmf : markerFree p = true)
    (m : Nat) (h1 : 1 ≤ m) (h2 : m ≤ p.length + 3) :
    checkSyncBytes ((B' ++ SYNC_BYTES) ++ (p ++ SYNC_BYTES).take m) = false := by
  apply checkSyncBytes_false
  have hX : SYNC_BYTES ++ (p ++ SYNC_BYTES).take m
      = (SYNC_BYTES ++ (p ++ SYNC_BYTES)).take (4 + m) := by
    rw [show (4 : Nat) + m = SYNC_BYTES.length + m from rfl]
    rw [List.take_append]
  have hXlen : (SYNC_BYTES ++ (p ++ SYNC_BYTES).take m).length = 4 + m := by
    simp only [List.length_append, List.length_take, SYNC_BYTES,
      List.length_cons, List.length_nil]
    omega
  rw [List.append_assoc]
  rw [drop_last_append B' _ (by rw [hXlen]; omega)]
  rw [hXlen]
  rw [show 4 + m - 4 = m from by omega]
  rw [hX]
  rw [List.drop_take]
  rw [show 4 + m - m = 4 from by omega]
  have hno := no_midstream_marker p hmf m h1 h2
  unfold occursAt at hno
  rw [List.append_assoc] at hno
  exact hno

/-- Feeding a well-formed marker-free frame payload plus its closing marker
to an anchored scanner emits exactly that decoded frame and re-anchors on
the consumed closing marker. -/
theorem frame_advance (B' p : List Nat) (C : Nat) (σ : ParserState)
    (hbuf : σ.justfloatBuffer = B' ++ SYNC_BYTES)
    (hstate : σ.justfloatState = .lookingForSecondSync)
    (hfsi : σ.firstSyncIndex = (B'.length : Int))
    (hexp : σ.expectedChannelCount = 0 ∨ σ.expectedChannelCount = C)
    (hC1 : 1 ≤ C) (hC64 : C ≤ 64)
    (hplen : p.length = 4 * C) (hmf : markerFree p = true)
    (hsz : B'.length + p.length ≤ 99000) :
    processJustFloat σ (p ++ SYNC_BYTES) =
      { σ with justfloatBuffer := SYNC_BYTES,
               justfloatState := .lookingForSecondSync,
               firstSyncIndex := 0,
               expectedChannelCount := C,
               framesBatch := σ.framesBatch ++ [parseFloats p],
               frameCount := σ.frameCount + 1,
               channelCount := ccUpdate σ.channelCount C,
               idleFlushTimer := true } := by
  have hsplit : p ++ SYNC_BYTES = (p ++ [0, 0, 128]) ++ [127] := by
    simp [SYNC_BYTES]
  have htk : ∀ m, m ≤ p.length + 3 →
      (p ++ [0, 0, 128]).take m = (p ++ SYNC_BYTES).take m := by
    intro m hm
    have h1 : p ++ [0, 0, 128] = (p ++ SYNC_BYTES).take (p.length + 3) := by
      rw [List.take_append]
      rfl
    rw [h1, List.take_take, min_eq_left hm]
  have hscan : processJustFloat σ (p ++ [0, 0, 128])
      = { σ with justfloatBuffer := σ.justfloatBuffer ++ (p ++ [0, 0, 128]) } := by
    refine processJustFloat_noFire _ σ ?_ ?_
    · rw [hbuf]
      simp only [List.length_append, List.length_cons, List.length_nil, SYNC_BYTES]
      omega
    · intro m hm1 hm2
      simp only [List.length_append, List.length_cons, List.length_nil] at hm2
      rw [hbuf, htk m (by omega)]
      exact noFire_bracket B' p hmf m hm1 (by omega)
  rw [hsplit, processJustFloat_append, hscan]
  show stepJustFloat _ 127 = _
  have hres := stepJustFloat_emit B' p C
    { σ with justfloatBuffer := σ.justfloatBuffer ++ (p ++ [0, 0, 128]) }
    (by rw [hbuf]; simp [List.append_assoc])
    (by exact hstate)
    (by exact hfsi)
    (by exact hexp)
    hC1 hC64 hplen
    (by omega)
  rw [hres]
  dsimp only
  rw [hstate]

/-- Running a nonempty sequence of well-formed marker-free frames (each
followed by its closing marker) from an anchored scanner batches exactly
their decodings and re-anchors. -/
theorem frames_run : ∀ (ps : List (List Nat)) (B' : List Nat) (C : Nat) (σ : ParserState),
    σ.justfloatBuffer = B' ++ SYNC_BYTES →
    σ.justfloatState = .lookingForSecondSync →
    σ.firstSyncIndex = (B'.length : Int) →
    (σ.expectedChannelCount = 0 ∨ σ.expectedChannelCount = C) →
    1 ≤ C → C ≤ 64 →
    (∀ p ∈ ps, p.length = 4 * C ∧ markerFree p = true) →
    B'.length ≤ 90000 →
    ps ≠ [] →
    processJustFloat σ ((ps.map (· ++ SYNC_BYTES)).join) =
      { σ with justfloatBuffer := SYNC_BYTES,
               justfloatState := .lookingForSecondSync,
               firstSyncIndex := 0,
               expectedChannelCount := C,
               framesBatch := σ.framesBatch ++ ps.map parseFloats,
               frameCount := σ.frameCount + ps.length,
               channelCount := ccUpdate σ.channelCount C,
               idleFlushTimer := true }
  | [], _, _, _, _, _, _, _, _, _, _, _, hne => absurd rfl hne
  | p :: ps, B', C, σ, hbuf, hstate, hfsi, hexp, hC1, hC64, hwf, hB, _ => by
    have hp := hwf p (by simp)
    have hadv := frame_advance B' p C σ hbuf hstate hfsi hexp hC1 hC64 hp.1 hp.2
      (by omega)
    show processJustFloat σ ((p ++ SYNC_BYTES) ++ (ps.map (· ++ SYNC_BYTES)).join) = _
    rw [processJustFloat_append, hadv]
    rcases Decidable.em (ps = []) with hps | hps
    · subst hps
      rfl
    · rw [frames_run ps [] C _ rfl rfl rfl (Or.inr rfl) hC1 hC64
        (fun q hq => hwf q (List.mem_cons_of_mem _ hq)) (by simp) hps]
      dsimp only
      simp +arith [ParserState.mk.injEq, ccUpdate_stable, List.append_assoc]

/-- Feeding the opening marker to a fresh parser anchors the scanner: the
marker fills the buffer, becomes the first marker, and the scanner waits
for a second one. -/
theorem processJustFloat_initSync :
    processJustFloat initParserState SYNC_BYTES =
      { initParserState with justfloatBuffer := SYNC_BYTES,
                             justfloatState := .lookingForSecondSync,
                             firstSyncIndex := 0 } := by
  rfl

/-- While the JustFloat protocol is active, feeding chunks one at a time is
feeding their concatenation: the scanner state never depends on chunk
boundaries. -/
theorem runChunks_join (chunks : List (List Nat)) :
    ∀ σ, σ.currentProtocol = .justfloat →
      runChunks σ chunks = processJustFloat σ chunks.join := by
  induction chunks with
  | nil => intro σ h; rfl
  | cons c cs ih =>
    intro σ h
    show runChunks (processData σ c) cs = _
    have hpd : processData σ c = processJustFloat σ c := by
      unfold processData
      rw [if_pos h]
    rw [hpd, ih _ (by rw [processJustFloat_protocol]; exact h),
      ← processJustFloat_append]
    rfl

/-- C1: for every valid binary stream of K concatenated well-formed
frames of C channels each (marker-bracketed, payloads free of the 4-byte
marker, 1 ≤ C ≤ 64), feeding the stream through `processData` — under ANY
splitting of the byte stream into chunks — emits exactly K frames, each
holding the C float32 readings of the original words. -/
theorem spec_C1_binary_stream_roundtrip (C : Nat) (wss : List (List Nat))
    (chunks : List (List Nat))
    (hC1 : 1 ≤ C) (hC64 : C ≤ 64)
    (hlen : ∀ ws ∈ wss, ws.length = C)
    (hw : ∀ ws ∈ wss, ∀ w ∈ ws, w < 2 ^ 32)
    (hmf : ∀ ws ∈ wss, markerFree (encodeWords ws) = true)
    (hchunks : chunks.join = encodeStream (wss.map encodeWords)) :
    emittedAll (runChunks initParserState chunks)
      = wss.map (fun ws => ws.map f32ValueOfWord)
    ∧ (emittedAll (runChunks initParserState chunks)).length = wss.length
    ∧ ∀ f ∈ emittedAll (runChunks initParserState chunks), f.length = C := by
  have hemit : emittedAll (runChunks initParserState chunks)
      = wss.map (fun ws => ws.map f32ValueOfWord) := by
    rw [runChunks_join chunks initParserState rfl, hchunks]
    unfold encodeStream
    rw [processJustFloat_append, processJustFloat_initSync]
    rcases Decidable.em (wss = []) with hws | hws
    · subst hws
      rfl
    · rw [frames_run (wss.map encodeWords) [] C _ rfl rfl rfl (Or.inl rfl) hC1 hC64
        (by
          intro p hp
          obtain ⟨ws, hmem, rfl⟩ := List.mem_map.mp hp
          exact ⟨by rw [encodeWords_length, hlen ws hmem], hmf ws hmem⟩)
        (by simp) (by simpa using hws)]
      unfold emittedAll
      dsimp only [initParserState]
      rw [List.map_map]
      simp only [List.nil_append]
      apply List.map_congr_left
      intro ws hmem
      exact parseFloats_encodeWords ws (hw ws hmem)
  refine ⟨hemit, by rw [hemit, List.length_map], ?_⟩
  intro f hf
  rw [hemit] at hf
  obtain ⟨ws, hmem, rfl⟩ := List.mem_map.mp hf
  rw [List.length_map]
  exact hlen ws hmem

/-- C1 at a concrete input: the two-frame one-channel stream for the
words `0x3F800000` and `0x40400000`, split into three ragged chunks, is
decoded into exactly those two frames. -/
theorem spec_C1_binary_stream_roundtrip_witness :
    emittedAll (runChunks initParserState
        [[0, 0], [128, 127, 0, 0, 128], [63, 0, 0, 128, 127, 0, 0, 64, 64, 0, 0, 128, 127]])
      = [[1065353216], [1077936128]].map (fun ws => ws.map f32ValueOfWord) :=
  (spec_C1_binary_stream_roundtrip 1 [[1065353216], [1077936128]]
    [[0, 0], [128, 127, 0, 0, 128], [63, 0, 0, 128, 127, 0, 0, 64, 64, 0, 0, 128, 127]]
    (by decide) (by decide) (by decide) (by decide) (by decide) (by decide)).1

/-- Feeding an aligned but channel-count-mismatching marker-free candidate
payload plus a closing marker to an anchored scanner: the candidate is
discarded, the buffer keeps every byte, and the scanner resumes
first-marker search. -/
theorem mismatch_advance (B' p : List Nat) (ka : Nat) (σ : ParserState)
    (hbuf : σ.justfloatBuffer = B' ++ SYNC_BYTES)
    (hstate : σ.justfloatState = .lookingForSecondSync)
    (hfsi : σ.firstSyncIndex = (B'.length : Int))
    (hka1 : 1 ≤ ka) (hka64 : ka ≤ 64)
    (hplen : p.length = 4 * ka) (hmf : markerFree p = true)
    (hexp : 0 < σ.expectedChannelCount) (hne : ka ≠ σ.expectedChannelCount)
    (hsz : B'.length + p.length ≤ 99000) :
    processJustFloat σ (p ++ SYNC_BYTES) =
      { σ with justfloatBuffer := (B' ++ SYNC_BYTES) ++ p ++ SYNC_BYTES,
               justfloatState := .lookingForFirstSync,
               firstSyncIndex := -1 } := by
  have hsplit : p ++ SYNC_BYTES = (p ++ [0, 0, 128]) ++ [127] := by
    simp [SYNC_BYTES]
  have htk : ∀ m, m ≤ p.length + 3 →
      (p ++ [0, 0, 128]).take m = (p ++ SYNC_BYTES).take m := by
    intro m hm
    have h1 : p ++ [0, 0, 128] = (p ++ SYNC_BYTES).take (p.length + 3) := by
      rw [List.take_append]
      rfl
    rw [h1, List.take_take, min_eq_left hm]
  have hscan : processJustFloat σ (p ++ [0, 0, 128])
      = { σ with justfloatBuffer := σ.justfloatBuffer ++ (p ++ [0, 0, 128]) } := by
    refine processJustFloat_noFire _ σ ?_ ?_
    · rw [hbuf]
      simp only [List.length_append, List.length_cons, List.length_nil, SYNC_BYTES]
      omega
    · intro m hm1 hm2
      simp only [List.length_append, List.length_cons, List.length_nil] at hm2
      rw [hbuf, htk m (by omega)]
      exact noFire_bracket B' p hmf m hm1 (by omega)
  rw [hsplit, processJustFloat_append, hscan]
  show stepJustFloat _ 127 = _
  have hres := stepJustFloat_mismatch B' p ka
    { σ with justfloatBuffer := σ.justfloatBuffer ++ (p ++ [0, 0, 128]) }
    (by rw [hbuf]; simp [List.append_assoc])
    (by exact hstate) (by exact hfsi) hka1 hka64 hplen
    (by exact hexp) (by exact hne) (by omega)
  rw [hres]
  dsimp only
  rw [hbuf]
  simp [SYNC_BYTES, List.append_assoc]

/-- While searching for a first marker over a buffer that already ends in
a marker, a marker-free byte run followed by a fresh marker is consumed
whole; the fresh marker is recorded as the new first marker. -/
theorem rescan_advance (P b : List Nat) (σ : ParserState)
    (hbuf : σ.justfloatBuffer = P ++ SYNC_BYTES)
    (hstate : σ.justfloatState = .lookingForFirstSync)
    (hbmf : markerFree b = true)
    (hsz : P.length + b.length ≤ 99000) :
    processJustFloat σ (b ++ SYNC_BYTES) =
      { σ with justfloatBuffer := (P ++ SYNC_BYTES) ++ b ++ SYNC_BYTES,
               justfloatState := .lookingForSecondSync,
               firstSyncIndex := ((((P ++ SYNC_BYTES) ++ b).length : Nat) : Int) } := by
  have hsplit : b ++ SYNC_BYTES = (b ++ [0, 0, 128]) ++ [127] := by
    simp [SYNC_BYTES]
  have htk : ∀ m, m ≤ b.length + 3 →
      (b ++ [0, 0, 128]).take m = (b ++ SYNC_BYTES).take m := by
    intro m hm
    have h1 : b ++ [0, 0, 128] = (b ++ SYNC_BYTES).take (b.length + 3) := by
      rw [List.take_append]
      rfl
    rw [h1, List.take_take, min_eq_left hm]
  have hscan : processJustFloat σ (b ++ [0, 0, 128])
      = { σ with justfloatBuffer := σ.justfloatBuffer ++ (b ++ [0, 0, 128]) } := by
    refine processJustFloat_noFire _ σ ?_ ?_
    · rw [hbuf]
      simp only [List.length_append, List.length_cons, List.length_nil, SYNC_BYTES]
      omega
    · intro m hm1 hm2
      simp only [List.length_append, List.length_cons, List.length_nil] at hm2
      rw [hbuf, htk m (by omega)]
      exact noFire_bracket P b hbmf m hm1 (by omega)
  rw [hsplit, processJustFloat_append, hscan]
  show stepJustFloat _ 127 = _
  have hchk : checkSyncBytes ((σ.justfloatBuffer ++ (b ++ [0, 0, 128])) ++ [127])
      = true := by
    rw [hbuf]
    rw [show ((P ++ SYNC_BYTES) ++ (b ++ [0, 0, 128])) ++ [127]
        = ((P ++ SYNC_BYTES) ++ b) ++ SYNC_BYTES from by
      simp [SYNC_BYTES, List.append_assoc]]
    refine checkSyncBytes_true _ ?_ ?_
    · simp only [List.length_append, SYNC_BYTES, List.length_cons, List.length_nil]
      omega
    · rw [drop_last_append _ SYNC_BYTES (by simp [SYNC_BYTES])]
      rfl
  have hres := stepJustFloat_firstFire
    { σ with justfloatBuffer := σ.justfloatBuffer ++ (b ++ [0, 0, 128]) } 127
    (by exact hstate)
    (by rw [hbuf]
        simp only [List.length_append, SYNC_BYTES, List.length_cons,
          List.length_nil]
        omega)
    (by exact hchk)
  rw [hres]
  dsimp only
  rw [hbuf]
  congr 1
  · simp [SYNC_BYTES, List.append_assoc]
  · simp only [List.length_append, List.length_cons, List.length_nil, SYNC_BYTES]
    push_cast
    ring

/-- C2: (a) in the second-marker state, a candidate that passes the
length/bound check (aligned, 1–64 channels) but whose decoded channel
count differs from the established nonzero count is discarded — the state
returns to first-marker search with the buffer only appended to, no frame
batched, and the session continues; (b) end to end, for a stream of
well-formed C-channel frames with one such anomaly injected inside one
frame's payload (an embedded marker splitting it into an aligned
mismatching candidate `a` and a remainder `b`), every valid frame strictly
before and strictly after the anomalous frame is still emitted — and
nothing else. -/
theorem spec_C2_mismatch_recovery
    (C ka : Nat) (a b : List Nat) (ps1 ps2 : List (List Nat))
    (chunks : List (List Nat))
    (hC1 : 1 ≤ C) (hC64 : C ≤ 64)
    (hps1 : ∀ p ∈ ps1, p.length = 4 * C ∧ markerFree p = true)
    (hps1ne : ps1 ≠ [])
    (hps2 : ∀ p ∈ ps2, p.length = 4 * C ∧ markerFree p = true)
    (hka1 : 1 ≤ ka) (hka64 : ka ≤ 64) (hkaC : ka ≠ C)
    (halen : a.length = 4 * ka) (hamf : markerFree a = true)
    (hbmf : markerFree b = true)
    (hq : a.length + 4 + b.length = 4 * C)
    (hchunks : chunks.join = encodeStream (ps1 ++ [a ++ SYNC_BYTES ++ b] ++ ps2)) :
    (∀ (σ : ParserState) (B0 p : List Nat),
        σ.justfloatBuffer = B0 ++ SYNC_BYTES ++ p ++ [0, 0, 128] →
        σ.justfloatState = .lookingForSecondSync →
        σ.firstSyncIndex = (B0.length : Int) →
        p.length = 4 * ka →
        0 < σ.expectedChannelCount → ka ≠ σ.expectedChannelCount →
        B0.length + p.length + 8 ≤ 100000 →
        stepJustFloat σ 127 =
          { σ with justfloatBuffer := σ.justfloatBuffer ++ [127],
                   justfloatState := .lookingForFirstSync,
                   firstSyncIndex := -1 })
    ∧ emittedAll (runChunks initParserState chunks)
        = ps1.map parseFloats ++ ps2.map parseFloats := by
  constructor
  · intro σ B0 p hbuf hstate hfsi hplen hexp hne hsz
    exact stepJustFloat_mismatch B0 p ka σ hbuf hstate hfsi hka1 hka64 hplen
      hexp hne hsz
  · rw [runChunks_join chunks initParserState rfl, hchunks]
    unfold encodeStream
    rw [show ((ps1 ++ [a ++ SYNC_BYTES ++ b] ++ ps2).map (· ++ SYNC_BYTES)).join
        = (ps1.map (· ++ SYNC_BYTES)).join
          ++ ((a ++ SYNC_BYTES) ++ (b ++ SYNC_BYTES))
          ++ (ps2.map (· ++ SYNC_BYTES)).join from by
      simp [List.join_append, List.append_assoc]]
    rw [processJustFloat_append]
    rw [processJustFloat_append]
    rw [processJustFloat_append]
    rw [processJustFloat_initSync]
    rw [frames_run ps1 [] C _ rfl rfl rfl (Or.inl rfl) hC1 hC64 hps1
      (by simp) hps1ne]
    rw [processJustFloat_append]
    rw [mismatch_advance [] a ka _ (List.nil_append SYNC_BYTES).symm rfl rfl
      hka1 hka64 halen hamf (by exact hC1) hkaC
      (by simp only [List.length_nil]; omega)]
    rw [rescan_advance (([] ++ SYNC_BYTES) ++ a) b _ rfl rfl hbmf
      (by simp only [List.length_append, List.length_nil, SYNC_BYTES,
        List.length_cons]; omega)]
    rcases Decidable.em (ps2 = []) with hps2e | hps2e
    · subst hps2e
      simp [emittedAll, processJustFloat, initParserState]
    · rw [frames_run ps2 (((([] ++ SYNC_BYTES) ++ a) ++ SYNC_BYTES) ++ b) C _
        rfl rfl rfl (Or.inr rfl) hC1 hC64 hps2
        (by simp only [List.length_append, List.length_nil, SYNC_BYTES,
          List.length_cons]; omega)
        hps2e]
      simp [emittedAll, initParserState]

/-- C2 at a concrete input: a three-frame 3-channel stream whose middle
frame payload contains an embedded marker after one aligned word; the
frames before and after the anomaly are both recovered. -/
theorem spec_C2_mismatch_recovery_witness :
    emittedAll (runChunks initParserState
        [encodeStream [[1, 0, 0, 0, 2, 0, 0, 0, 3, 0, 0, 0],
          [9, 9, 9, 9] ++ SYNC_BYTES ++ [8, 8, 8, 8],
          [4, 0, 0, 0, 5, 0, 0, 0, 6, 0, 0, 0]]])
      = [[1, 0, 0, 0, 2, 0, 0, 0, 3, 0, 0, 0]].map parseFloats
        ++ [[4, 0, 0, 0, 5, 0, 0, 0, 6, 0, 0, 0]].map parseFloats :=
  (spec_C2_mismatch_recovery 3 1 [9, 9, 9, 9] [8, 8, 8, 8]
    [[1, 0, 0, 0, 2, 0, 0, 0, 3, 0, 0, 0]]
    [[4, 0, 0, 0, 5, 0, 0, 0, 6, 0, 0, 0]]
    [encodeStream [[1, 0, 0, 0, 2, 0, 0, 0, 3, 0, 0, 0],
      [9, 9, 9, 9] ++ SYNC_BYTES ++ [8, 8, 8, 8],
      [4, 0, 0, 0, 5, 0, 0, 0, 6, 0, 0, 0]]]
    (by decide) (by decide) (by decide) (by decide) (by decide) (by decide)
    (by decide) (by decide) (by decide) (by decide) (by decide) (by decide)
    (by decide)).2

end Oscillo
